import Mathlib

/-!
Verification development for the Planner repository (a Scrapy/Selenium
web scraper for super.lider.cl).  The definitions below are shallow
embeddings, translated from the Python sources:

* src/lider_scraper/spiders/snacks-y-picoteo_spider.py
  (module-level helpers, SnacksYPicoteoSpider.parse_products,
   _extract_product_data, _is_button_enabled,
   _process_all_pages_with_pagination)
* src/lider_scraper/spiders/lider_spider.py (LiderSpider._extract_product_data)
* src/lider_scraper/pipelines.py (JsonPipeline.close_spider)
* src/lider_scraper/items.py (ProductItem field declarations)

External collaborators (the Selenium driver, the parsel XPath engine and
the HTTP layer) are modelled as explicit observation records: every
value the Python code obtains from them (an attribute string, a list of
text nodes, a located element) becomes a field of an input structure,
and the control flow of the Python code is translated on top of those
observations.  Machine integers do not occur (Python ints are unbounded,
modelled as Nat where only digit strings are parsed).
-/

namespace Planner

/-! ## Python string primitives

Models of the exact Python operations used by the spider:
str.strip, str.split, str.replace, " ".join, str truthiness, int(),
and the character classes of the regexes (ASCII view; all inputs the
spider handles here are Unicode, but the claims and counterexamples
only exercise ASCII, where these models agree with CPython). -/

/-- Whitespace as matched by Python's regex class backslash-s and stripped by
str.strip (ASCII part): space, tab, newline, carriage return,
vertical tab, form feed. -/
def isPySpace (c : Char) : Bool :=
  c == ' ' || c == '\t' || c == '\n' || c == '\r' ||
  c == Char.ofNat 11 || c == Char.ofNat 12

/-- Drop leading Python whitespace from a character list. -/
def trimLeadWs : List Char → List Char
  | [] => []
  | c :: cs => if isPySpace c then trimLeadWs cs else c :: cs

/-- Model of Python str.strip(): trim whitespace from both ends. -/
def pyStripL (l : List Char) : List Char :=
  (trimLeadWs (trimLeadWs l).reverse).reverse

/-- Model of Python str.strip() on strings. -/
def pyStrip (s : String) : String :=
  String.mk (pyStripL s.data)

/-- Model of Python s.replace(" ", ""): remove every space character. -/
def removeSpaces (s : String) : String :=
  String.mk (s.data.filter (fun c => !(c == ' ')))

/-- Model of s.replace(chr(36), "").replace(".", "") as used at line 748 of the
snacks spider: remove every dollar sign and every dot. -/
def removeDollarDots (s : String) : String :=
  String.mk (s.data.filter (fun c => !(c == '$') && !(c == '.')))

/-- Join a list of strings with single spaces, as Python " ".join. -/
def joinSp : List String → String
  | [] => ""
  | [s] => s
  | s :: s2 :: rest => s ++ " " ++ joinSp (s2 :: rest)

/-- Helper for splitting a character list into maximal non-whitespace runs. -/
def wsTokensAux : List Char → List Char → List (List Char)
  | [], acc => if acc.isEmpty then [] else [acc.reverse]
  | c :: cs, acc =>
    if isPySpace c then
      if acc.isEmpty then wsTokensAux cs [] else acc.reverse :: wsTokensAux cs []
    else wsTokensAux cs (c :: acc)

/-- The maximal non-whitespace runs of a string, in order. -/
def wsTokens (s : String) : List String :=
  (wsTokensAux s.data []).map String.mk

/-- Model of the module helper _clean_text (snacks spider lines 46-51):
collapse every whitespace run to a single space, strip the ends, and
return None for an empty result.  Collapsing runs and stripping is the
same as joining the non-whitespace runs with single spaces. -/
def clean_text (s : String) : Option String :=
  let t := joinSp (wsTokens s)
  if t == "" then none else some t

/-- Helper for splitting on the newline character, as Python str.split
with a newline separator (keeps empty pieces). -/
def splitNlAux : List Char → List Char → List (List Char)
  | [], acc => [acc.reverse]
  | c :: cs, acc =>
    if c == '\n' then acc.reverse :: splitNlAux cs [] else splitNlAux cs (c :: acc)

/-- Model of Python s.split with a newline separator. -/
def pySplitNl (s : String) : List String :=
  (splitNlAux s.data []).map String.mk

/-- Numeric value of a digit list, most significant first. -/
def digitsVal (l : List Char) : Nat :=
  l.foldl (fun n c => 10 * n + (c.toNat - '0'.toNat)) 0

/-- Model of Python int(s) on the strings reachable in the price heuristic
(whitespace around an optional run of decimal digits): int() strips
surrounding whitespace and parses the digits, raising ValueError —
modelled as none — when what remains is not a digit run. -/
def pyInt? (s : String) : Option Nat :=
  let t := pyStripL s.data
  if !t.isEmpty && t.all Char.isDigit then some (digitsVal t) else none

/-- Boolean prefix test on character lists. -/
def isPrefixCh : List Char → List Char → Bool
  | [], _ => true
  | _ :: _, [] => false
  | a :: as, b :: bs => a == b && isPrefixCh as bs

/-- Boolean occurs-inside test on character lists (contiguous substring). -/
def containsSubL (nd : List Char) : List Char → Bool
  | [] => isPrefixCh nd []
  | c :: cs => isPrefixCh nd (c :: cs) || containsSubL nd cs

/-- Model of Python "nd in hay" on strings: contiguous substring test. -/
def containsSub (hay nd : String) : Bool :=
  containsSubL nd.data hay.data

/-- ASCII lowercase of one character (model of str.lower on the ASCII
range the spider compares against). -/
def charLower (c : Char) : Char :=
  if 'A' ≤ c && c ≤ 'Z' then Char.ofNat (c.toNat + 32) else c

/-- Model of Python str.lower (ASCII view). -/
def strLower (s : String) : String :=
  String.mk (s.data.map charLower)

/-! ## The monetary literal scanner

Model of re.findall with the money pattern of the snacks spider
(lines 42 and 719): a dollar sign, an optional single whitespace
character, one to three digits, then zero or more groups of a dot
followed by exactly three digits.  re.findall returns the
non-overlapping matches scanning left to right; the scan below tries a
match at each position and skips one character when none starts there. -/

/-- Number of leading decimal digits of a character list. -/
def digitsPrefixLen : List Char → Nat
  | [] => 0
  | c :: cs => if c.isDigit then digitsPrefixLen cs + 1 else 0

/-- Length in characters consumed by the greedy star over groups of a dot
followed by exactly three digits. -/
def groupsLen : List Char → Nat
  | c0 :: a :: b :: c :: rest =>
    if c0 == '.' && a.isDigit && b.isDigit && c.isDigit then 4 + groupsLen rest else 0
  | _ => 0

/-- The optional single whitespace of the pattern: consumed only when a
digit follows (regex backtracking over one optional character). -/
def moneySpan : List Char → Nat × List Char
  | c :: cs =>
    if isPySpace c && decide (0 < digitsPrefixLen cs) then (1, cs) else (0, c :: cs)
  | [] => (0, [])

/-- Length of the money-pattern match starting at the head of the list,
or none when the pattern does not match there (moneySpan handles the
optional whitespace). -/
def moneyMatchLen (l : List Char) : Option Nat :=
  match l with
  | c0 :: rest =>
    if c0 == '$' then
      let p := moneySpan rest
      let d := min (digitsPrefixLen p.2) 3
      if d == 0 then none else some (1 + p.1 + d + groupsLen (p.2.drop d))
    else none
  | [] => none

/-- Fuel-indexed scanner over the character list (fuel at least the list
length makes it total; structural recursion keeps it kernel-reducible). -/
def findAllAux : Nat → List Char → List String
  | 0, _ => []
  | _, [] => []
  | fuel + 1, c :: cs =>
    match moneyMatchLen (c :: cs) with
    | some n => String.mk ((c :: cs).take n) :: findAllAux fuel ((c :: cs).drop n)
    | none => findAllAux fuel cs

/-- Model of re.findall with the money pattern over a whole string. -/
def findall_money (s : String) : List String :=
  findAllAux s.data.length s.data

/-- Model of the module helper _clean_money (snacks spider lines 37-43):
strip, take the first money match, remove its spaces; none when no match. -/
def clean_money (s : String) : Option String :=
  (findall_money (pyStrip s)).head?.map removeSpaces

/-! ## An independent acceptor for the money pattern

Used to state what the scanner returns: a whole-string grammar checker
written from the shape of the pattern (dollar, optional single
whitespace character, one to three digits, groups of a dot plus exactly
three digits), not from the scanner's code. -/

/-- Accepts exactly the strings consisting of zero or more groups of a
dot followed by exactly three digits. -/
def litGroups : List Char → Bool
  | [] => true
  | c0 :: a :: b :: c :: rest =>
    c0 == '.' && a.isDigit && b.isDigit && c.isDigit && litGroups rest
  | _ => false

/-- Accepts exactly one to three digits followed by dot-groups. -/
def digitsThenGroups (l : List Char) : Bool :=
  let k := digitsPrefixLen l
  decide (1 ≤ k) && decide (k ≤ 3) && litGroups (l.drop k)

/-- Accepts exactly the full money literals: a dollar sign, an optional
single whitespace character, one to three digits, then dot-groups. -/
def isMoneyLit (s : String) : Bool :=
  match s.data with
  | c0 :: c :: cs =>
    c0 == '$' && ((isPySpace c && digitsThenGroups cs) || digitsThenGroups (c :: cs))
  | _ => false

/-! ## Order-preserving deduplication

Lines 734-739 of the snacks spider deduplicate the space-stripped price
literals with a seen-set while keeping first-seen order; the JSON
pipeline and the link fallback of parse_products use the same idiom. -/

/-- The seen-set deduplication loop of the snacks spider (lines 734-739),
with the Python set modelled as the list of values added so far. -/
def dedupFirstSeen (seen : List String) : List String → List String
  | [] => []
  | p :: rest =>
    if seen.contains p then dedupFirstSeen seen rest
    else p :: dedupFirstSeen (p :: seen) rest

/-- Independent formulation of first-seen deduplication: keep the head
and drop its later duplicates before recursing (fuel-indexed to stay
structural; fuel at least the length is enough). -/
def specNubAux : Nat → List String → List String
  | 0, _ => []
  | _, [] => []
  | fuel + 1, x :: xs => x :: specNubAux fuel (xs.filter (fun y => !(y == x)))

/-- First-seen deduplication, spec-side formulation. -/
def specNub (l : List String) : List String :=
  specNubAux l.length l

/-! ## The price heuristic

Lines 718-770 of the snacks spider: collect money literals, strip
spaces, deduplicate, then split on the number of distinct literals.
Python list.sort with a key is a stable ascending sort; it is modelled
by stable insertion sort on the (value, literal) pairs. -/

/-- Insert a keyed pair after all pairs of smaller-or-equal key
(stable insertion step). -/
def insertKeyed (p : Nat × String) : List (Nat × String) → List (Nat × String)
  | [] => [p]
  | q :: qs => if p.1 < q.1 then p :: q :: qs else q :: insertKeyed p qs

/-- Stable ascending sort by first component, the model of
price_values.sort keyed on the parsed integer (line 754). -/
def sortByVal (l : List (Nat × String)) : List (Nat × String) :=
  l.foldl (fun acc p => insertKeyed p acc) []

/-- Parsed integer value of a price literal: drop dollars and dots, then
int() (line 748-750 of the snacks spider). -/
def moneyVal? (s : String) : Option Nat :=
  pyInt? (removeDollarDots s)

/-- The price / discount heuristic of _extract_product_data
(lines 741-770), applied to the deduplicated literal list
unique_prices.  Returns the pair (price, discount_price). -/
def priceFrom (ups : List String) : Option String × Option String :=
  if 2 ≤ ups.length then
    let pv := ups.filterMap (fun s => (moneyVal? s).map (fun v => (v, s)))
    let sorted := sortByVal pv
    match sorted with
    | [] => (ups.head?, none)
    | [x] => (some x.2, some x.2)
    | x :: y :: rest => (some (((y :: rest).getLastD y).2), some x.2)
  else
    match ups with
    | [u] => (some u, some u)
    | _ => (none, none)

/-- The literal list computed from one text: money matches, filtered to
those with non-blank strip (always true for a match), space-stripped
(lines 719 and 731 of the snacks spider). -/
def literalList (t : String) : List String :=
  ((findall_money t).filter (fun p => !(pyStrip p == ""))).map removeSpaces

/-- The deduplicated literal list unique_prices computed from one text
(lines 719-739). -/
def unique_prices (t : String) : List String :=
  dedupFirstSeen [] (literalList t)

/-! ## The snacks extractor

SnacksYPicoteoSpider._extract_product_data (lines 633-780) reads the
candidate DOM node only through XPath queries of the parsel library (an
external collaborator).  Each query result becomes a field of the
Candidate observation record; the Python control flow is translated on
top.  A none in an Option field is a query that returned no node. -/

/-- Everything _extract_product_data observes about one candidate node. -/
structure Candidate where
  /-- product_node.root.tag == the letter a (the node is an anchor). -/
  isAnchor : Bool
  /-- XPath ./@href on the node itself. -/
  selfHref : Option String
  /-- XPath .//a[contains(@href, the ip marker)]/@href (first result). -/
  innerIpHref : Option String
  /-- XPath normalize-space(.) of the node (anchor name branch). -/
  anchorNormText : String
  /-- normalize-space of each of the seven name selectors, in order
  (lines 665-673); generalised to any ordered selector list. -/
  selTexts : List String
  /-- XPath .//text() getall of the node. -/
  allTexts : List String
  /-- Text nodes of the nearest ancestor product/item/card container
  (line 698); none when the container query returns nothing. -/
  containerTexts : Option (List String)
  /-- Text nodes of the parent and near siblings (line 705). -/
  parentTexts : List String
  /-- Text nodes of ./ancestor::div[1] (line 725); none when absent. -/
  ancestorDivTexts : Option (List String)
deriving Repr, DecidableEq

/-- The fields of the item a successful extraction builds
(see items.py for the declared ProductItem fields). -/
structure ProductRecord where
  category_url : String
  product_url : Option String
  name : String
  raw_text : Option String
  price : Option String
  discount_price : Option String
deriving Repr, DecidableEq

/-- Python truthiness filter on an optional string: none and the empty
string are falsy. -/
def truthy (o : Option String) : Option String :=
  match o with
  | some s => if s == "" then none else some s
  | none => none

/-- Coarse model of urllib.parse.urljoin (external library): absolute
URLs pass through, otherwise the reference is appended to the base.
No claim depends on URL resolution details. -/
def pyUrljoin (base href : String) : String :=
  if isPrefixCh "http://".data href.data || isPrefixCh "https://".data href.data then href
  else base ++ href

/-- The href chosen for the product URL (lines 640-648): an anchor node
uses its own href; otherwise the first inner product link href, falling
back to the node's own href when that is falsy. -/
def hrefOf (c : Candidate) : Option String :=
  if c.isAnchor then c.selfHref
  else
    match truthy c.innerIpHref with
    | some h => some h
    | none => c.selfHref

/-- The length filter applied to candidate name texts
(name_text truthy and longer than 3 characters). -/
def longEnough (t : String) : Bool :=
  !(t == "") && decide (3 < t.length)

/-- Name derivation (lines 655-687): an anchor uses its normalized text
when longer than 3 characters; otherwise the ordered selector texts are
tried and the first one longer than 3 characters is cleaned (the loop
breaks there even if cleaning yields none).  If no name was produced,
fall back to the first newline-separated piece of the joined full text
whose stripped form is non-blank and longer than 3 characters. -/
def deriveName (c : Candidate) : Option String :=
  let primary : Option String :=
    if c.isAnchor then
      if longEnough c.anchorNormText then clean_text c.anchorNormText else none
    else
      (c.selTexts.find? longEnough).bind clean_text
  match primary with
  | some n => some n
  | none =>
    let all_text := joinSp c.allTexts
    let parts := ((pySplitNl all_text).map pyStrip).filter longEnough
    parts.head?.bind clean_text

/-- Join the stripped, non-blank members of a text-node list with
spaces, the genexp idiom of lines 701, 704-705, 709, 727. -/
def joinStripped (ts : List String) : String :=
  joinSp ((ts.map pyStrip).filter (fun t => !(t == "")))

/-- raw_text derivation (lines 692-714): an anchor prefers its product
container's text, else its own text joined with the parent text;
a non-anchor uses its own text nodes; the result is cleaned and can be
none for a text-free candidate. -/
def rawTextOf (c : Candidate) : Option String :=
  if c.isAnchor then
    match c.containerTexts with
    | some ts => clean_text (joinStripped ts)
    | none => clean_text (joinStripped c.allTexts ++ " " ++ joinStripped c.parentTexts)
  else clean_text (joinStripped c.allTexts)

/-- The space-stripped price literal list of a candidate (lines 718-731):
scan raw_text; when it has no match and the node is an anchor with an
enclosing div, scan that div's text instead. -/
def pricesOf (c : Candidate) (rt : String) : List String :=
  let prices := findall_money rt
  let prices :=
    if prices.isEmpty then
      if c.isAnchor then
        match c.ancestorDivTexts with
        | some ts => findall_money (joinStripped ts)
        | none => prices
      else prices
    else prices
  (prices.filter (fun p => !(pyStrip p == ""))).map removeSpaces

/-- Core of _extract_product_data: ok none is the silent discard of a
nameless candidate (line 774); error is the exception path — when
raw_text is None, re.findall(pattern, None) at line 719 raises
TypeError, which the handler at lines 778-780 logs and converts to
None. -/
def extractCore (c : Candidate) (category_url : String) : Except String (Option ProductRecord) :=
  let product_url : Option String :=
    match truthy (hrefOf c) with
    | some h => some (pyUrljoin category_url h)
    | none => none
  let nameField := (deriveName c).getD "Sin nombre"
  match rawTextOf c with
  | none => Except.error "TypeError: expected string or bytes-like object"
  | some rt =>
    let ups := dedupFirstSeen [] (pricesOf c rt)
    let pd := priceFrom ups
    if nameField == "" || nameField == "Sin nombre" then Except.ok none
    else
      Except.ok (some
        { category_url := category_url
          product_url := product_url
          name := nameField
          raw_text := some rt
          price := pd.1
          discount_price := pd.2 })

/-- SnacksYPicoteoSpider._extract_product_data as the caller sees it:
every exception becomes None (lines 778-780). -/
def extract_product_data (c : Candidate) (category_url : String) : Option ProductRecord :=
  match extractCore c category_url with
  | Except.error _ => none
  | Except.ok r => r

/-- The same extraction with the spider's logger state threaded
explicitly: the only side channel of _extract_product_data is the
logger.error call on the exception path (line 779); the log is an
append-only list of messages. -/
def extract_with_log (c : Candidate) (category_url : String) (log : List String) :
    Option ProductRecord × List String :=
  match extractCore c category_url with
  | Except.error m => (none, log ++ ["Error extrayendo datos del producto: " ++ m])
  | Except.ok r => (r, log)

/-! ## The lider spider's extractor

LiderSpider._extract_product_data (lider_spider.py lines 1341-1381)
assigns Selenium-derived values into a scrapy ProductItem.  A scrapy
Item raises KeyError on assignment to a field that items.py does not
declare; items.py declares only category_url, name, price,
discount_price, product_url and raw_text, while the lider extractor
assigns index, image_url, link and description.  Field assignment is
therefore modelled on an association list guarded by the declared-field
list. -/

/-- The fields declared by ProductItem in items.py. -/
def productItemFields : List String :=
  ["category_url", "name", "price", "discount_price", "product_url", "raw_text"]

/-- A scrapy Item as a field map. -/
abbrev FieldMap := List (String × String)

/-- Model of scrapy Item assignment: setting an undeclared field raises
KeyError, modelled as none. -/
def itemSet (it : FieldMap) (k v : String) : Option FieldMap :=
  if productItemFields.contains k then some ((k, v) :: it.filter (fun p => !(p.1 == k)))
  else none

/-- Model of item.get on the field map. -/
def itemGet (it : FieldMap) (k : String) : Option String :=
  (it.find? (fun p => p.1 == k)).map (fun p => p.2)

/-- What LiderSpider._extract_product_data observes about one Selenium
element; a none means the corresponding find_element raised. -/
structure LiderElem where
  nameText : Option String
  priceText : Option String
  imgSrc : Option String
  imgDataSrc : Option String
  hasImg : Bool
  linkHref : Option String
  hasLink : Bool
deriving Repr

/-- Model of a try/except around a field store: when the attempt raises
(none), the handler runs; an exception raised by the handler itself
propagates (stays none). -/
def tryField (attempt handler : Option FieldMap) : Option FieldMap :=
  match attempt with
  | some r => some r
  | none => handler

/-- Model of LiderSpider._normalize_url (lines 1383-1392). -/
def normalize_url (u : String) : String :=
  if u == "" then ""
  else
    let v := pyStrip u
    if isPrefixCh "http://".data v.data || isPrefixCh "https://".data v.data then v
    else if isPrefixCh "/".data v.data then pyUrljoin "https://super.lider.cl/" v
    else pyUrljoin "https://super.lider.cl/" ("/" ++ v)

/-- LiderSpider._extract_product_data (lines 1341-1381).  The very first
statement, the store of index at line 1345, is outside every inner
try and raises KeyError (index is not a declared field), which the
outer handler at lines 1379-1381 turns into None; the remaining
statements are translated for completeness but are unreachable. -/
def lider_extract_product_data (e : LiderElem) (index : Nat) : Option FieldMap :=
  (itemSet [] "index" (toString index)).bind (fun it1 =>
  (tryField
    (match e.nameText with
     | some t => itemSet it1 "name" (pyStrip t)
     | none => none)
    (itemSet it1 "name" "Sin nombre")).bind (fun it2 =>
  (tryField
    (match e.priceText with
     | some t => itemSet it2 "price" (pyStrip t)
     | none => none)
    (itemSet it2 "price" "Sin precio")).bind (fun it3 =>
  (tryField
    (if e.hasImg then
       let img := ((truthy e.imgSrc).getD ((truthy e.imgDataSrc).getD ""))
       itemSet it3 "image_url" (if img == "" then "" else normalize_url img)
     else none)
    (itemSet it3 "image_url" "")).bind (fun it4 =>
  (tryField
    (if e.hasLink then
       let href := (truthy e.linkHref).getD ""
       itemSet it4 "link" (if href == "" then "" else normalize_url href)
     else none)
    (itemSet it4 "link" "")).bind (fun it5 =>
  (itemSet it5 "description" "").bind (fun it6 =>
  match truthy (itemGet it6 "name") with
  | none => none
  | some n => if n == "Sin nombre" then none else some it6))))))

/-! ## Candidate selection in parse_products

SnacksYPicoteoSpider.parse_products (lines 301-347) tries the ordered
PRODUCT_XPATHS strategies and keeps the node list of the first one that
returns anything; when all return nothing it falls back to the product
link heuristic.  A strategy's evaluated result is a node list; DOM
nodes are identified by an id.  The fallback observes, per anchor, its
href and its nearest product/item/card ancestor container. -/

/-- A DOM node, identified for list membership. -/
structure DomNode where
  nid : Nat
deriving Repr, DecidableEq

/-- What the link fallback observes about one product anchor:
XPath ./@href, the nearest ancestor container from
./ancestor::div[contains(@class,...)][1], and the anchor node itself. -/
structure AnchorInfo where
  href : Option String
  container : Option DomNode
  node : DomNode
deriving Repr, DecidableEq

/-- The strategy loop of lines 308-317: the first non-empty result wins
(a strategy that raises is skipped, which an empty result also models). -/
def firstNonempty : List (List DomNode) → List DomNode
  | [] => []
  | s :: rest => if s.isEmpty then firstNonempty rest else s

/-- The link fallback of lines 320-336: walk the product anchors,
skip falsy or already-seen hrefs, and emit the anchor's container, or
the anchor itself when it has none. -/
def fallbackCandidates (seen : List String) : List AnchorInfo → List DomNode
  | [] => []
  | a :: rest =>
    match a.href with
    | some h =>
      if !(h == "") && !(seen.contains h) then
        (match a.container with
         | some ct => [ct]
         | none => [a.node]) ++ fallbackCandidates (h :: seen) rest
      else fallbackCandidates seen rest
    | none => fallbackCandidates seen rest

/-- The candidate node set parse_products extracts from: first-match-wins
over the strategies, else the link fallback. -/
def parse_products_candidates (strats : List (List DomNode)) (anchors : List AnchorInfo) :
    List DomNode :=
  let pn := firstNonempty strats
  if pn.isEmpty then fallbackCandidates [] anchors else pn

/-- Spec-side anchor deduplication, written from the claim: keep each
anchor and drop the later anchors with the same href (fuel-indexed,
fuel at least the length suffices). -/
def dedupAnchorsAux : Nat → List AnchorInfo → List AnchorInfo
  | 0, _ => []
  | _, [] => []
  | fuel + 1, a :: rest => a :: dedupAnchorsAux fuel (rest.filter (fun b => !(b.href == a.href)))

/-- Spec-side anchor deduplication. -/
def dedupAnchors (l : List AnchorInfo) : List AnchorInfo :=
  dedupAnchorsAux l.length l

/-- Spec-side fallback, written from the claim's words: the anchors
deduplicated by href target, each mapped to its nearest ancestor
container, or the anchor itself when no container exists. -/
def specFallback (l : List AnchorInfo) : List DomNode :=
  (dedupAnchors l).map (fun a => a.container.getD a.node)

/-! ## The pagination control classifier

SnacksYPicoteoSpider._is_button_enabled (lines 562-631), over the
observations the Selenium calls provide. -/

/-- What the classifier observes about the nested link of the control. -/
structure LinkInfo where
  href : Option String
  ariaDisabled : Option String
  className : Option String
deriving Repr, DecidableEq

/-- What the classifier observes about the pagination control element. -/
structure PagButton where
  disabledAttr : Option String
  className : Option String
  displayed : Bool
  link : Option LinkInfo
  ariaDisabled : Option String
  onclick : Option String
deriving Repr, DecidableEq

/-- _is_button_enabled, line for line: the disabled attribute, a
disabled marker in the class, visibility, then the nested link's
aria-disabled, href validity and class; without a nested link, the
control's own aria-disabled, else enabled. -/
def is_button_enabled (b : PagButton) : Bool :=
  if (match b.disabledAttr with
      | some d => !(d == "false")
      | none => false) then false
  else if containsSub (strLower (b.className.getD "")) "disabled" then false
  else if !b.displayed then false
  else
    match b.link with
    | some lk =>
      if (match truthy lk.ariaDisabled with
          | some a => strLower a == "true"
          | none => false) then false
      else if (match lk.href with
               | none => true
               | some h =>
                 pyStrip h == "" || pyStrip h == "#" || containsSub (strLower h) "javascript:void")
        then false
      else if containsSub (strLower (lk.className.getD "")) "disabled" then false
      else true
    | none =>
      if (match truthy b.ariaDisabled with
          | some a => strLower a == "true"
          | none => false) then false
      else
        match truthy b.onclick with
        | some _ => true
        | none => true

/-! ## The pagination loop

SnacksYPicoteoSpider._process_all_pages_with_pagination
(lines 365-517).  Two textual facts about the source bear on the model:

* The file as committed is not valid Python: the block at lines 432-497
  is dedented 4 columns relative to the try opened at line 427, leaving
  that try without an except clause (a SyntaxError at line 433).  The
  model uses the evident intended indentation, under which the try of
  line 427 spans lines 428-477 and pairs with the except of line 479.
* Under that indentation, the statement page_number += 1 at line 478
  sits inside the except handler of line 464 after its raise at
  line 466: it is unreachable on the direct and JavaScript click
  paths.  Only the ActionChains fallback path at line 488 increments
  page_number.  The model reflects this faithfully.

The external world is a Fixture: the page (url, extracted items, next
control) at each navigation position, url-directed navigation, and
per-iteration schedules for the window-check fault (lines 373-390),
the page_source fault (lines 393-399) and the click outcome. -/

/-- How one click attempt resolves, per the source's fallback ladder:
direct click works (line 441); direct raises and the JavaScript click
works (line 446); both raise and the ActionChains retry works
(lines 484-488); everything fails (line 491 break). -/
inductive ClickOutcome
  | direct
  | js
  | alt
  | fail
deriving Repr, DecidableEq

/-- One browser position of the fixture. -/
structure FixturePage where
  url : String
  items : List String
  button : Option PagButton

/-- The deterministic external world of one run. -/
structure Fixture where
  pages : Nat → FixturePage
  goto : String → Nat
  faultAt : Nat → Bool
  reinitOk : Nat → Bool
  fetchFault : Nat → Bool
  clickPlan : Nat → ClickOutcome

/-- The loop's mutable state: page_number, the browser position, the
_last_url attribute, and instrumentation counters for page-source
fetches and click interactions. -/
structure LoopState where
  pageNumber : Nat
  pos : Nat
  lastUrl : Option String
  fetches : Nat
  clicks : Nat
deriving Repr, DecidableEq

/-- State at loop entry: page_number = 1, nothing fetched. -/
def initLoopState : LoopState :=
  { pageNumber := 1, pos := 0, lastUrl := none, fetches := 0, clicks := 0 }

/-- The hard page ceiling (line 368). -/
def max_pages : Nat := 50

/-- Result of one loop iteration: continue with a new state, or leave
the loop (break or a terminal branch), yielding this iteration's items. -/
inductive StepOut
  | next (s : LoopState) (out : List String)
  | halt (s : LoopState) (out : List String)

/-- One iteration of the while body (lines 371-517): window check with
reinit-and-renavigate recovery, page_source fetch (break on fault),
parse and yield the page's items, then locate and classify the next
control and act on the click plan.  Clicks advance the browser
position; page_number advances only on the ActionChains path
(see the header comment on the dead increment at line 478). -/
def loopStep (fx : Fixture) (t : Nat) (s : LoopState) : StepOut :=
  if fx.faultAt t && !(fx.reinitOk t) then StepOut.halt s []
  else
    let s1 :=
      if fx.faultAt t then
        match s.lastUrl with
        | some u => { s with pos := fx.goto u }
        | none => s
      else s
    if fx.fetchFault t then StepOut.halt s1 []
    else
      let pg := fx.pages s1.pos
      let s2 := { s1 with lastUrl := some pg.url, fetches := s1.fetches + 1 }
      match pg.button with
      | none => StepOut.halt s2 pg.items
      | some b =>
        if is_button_enabled b then
          match fx.clickPlan t with
          | ClickOutcome.direct =>
            StepOut.next { s2 with pos := s2.pos + 1, clicks := s2.clicks + 1 } pg.items
          | ClickOutcome.js =>
            StepOut.next { s2 with pos := s2.pos + 1, clicks := s2.clicks + 1 } pg.items
          | ClickOutcome.alt =>
            StepOut.next
              { s2 with pos := s2.pos + 1, clicks := s2.clicks + 1,
                        pageNumber := s2.pageNumber + 1 } pg.items
          | ClickOutcome.fail =>
            StepOut.halt { s2 with clicks := s2.clicks + 1 } pg.items
        else StepOut.halt s2 pg.items

/-- The while loop (line 370), fuel-indexed: returns the records
yielded, the final state, and true when the fuel ran out with the loop
still running (the guard page_number less-or-equal max_pages is checked
before each iteration; false means the loop terminated by guard, break
or terminal branch). -/
def runLoop (fx : Fixture) : Nat → Nat → LoopState → List String × LoopState × Bool
  | 0, _, s => ([], s, true)
  | fuel + 1, t, s =>
    if max_pages < s.pageNumber then ([], s, false)
    else
      match loopStep fx t s with
      | StepOut.halt s2 out => (out, s2, false)
      | StepOut.next s2 out =>
        let r := runLoop fx fuel (t + 1) s2
        (out ++ r.1, r.2)

/-! ## The JSON pipeline

JsonPipeline.close_spider (pipelines.py lines 41-69): filter out
blocked and debug items, deduplicate by product_url keeping the first
occurrence, drop items with a falsy product_url. -/

/-- A processed item as the pipeline sees it: the truthiness of its
_blocked and _debug keys, its product_url, and a payload field. -/
structure ExportItem where
  blocked : Bool
  debug : Bool
  product_url : Option String
  name : String
deriving Repr, DecidableEq

/-- The valid_items filter (line 45). -/
def validItems (l : List ExportItem) : List ExportItem :=
  l.filter (fun it => !it.blocked && !it.debug)

/-- The deduplication loop of lines 48-58: keep an item when its
product_url is truthy and unseen; a seen truthy url only counts a
duplicate; a falsy url is dropped silently. -/
def dedupByUrl (seen : List String) : List ExportItem → List ExportItem
  | [] => []
  | it :: rest =>
    match it.product_url with
    | some u =>
      if !(u == "") && !(seen.contains u) then it :: dedupByUrl (u :: seen) rest
      else dedupByUrl seen rest
    | none => dedupByUrl seen rest

/-- The unique_items list written to the JSON file at close
(lines 43-65). -/
def close_spider_items (l : List ExportItem) : List ExportItem :=
  dedupByUrl [] (validItems l)

/-! ## Spec-side definitions

Definitions transcribed from the specification's wording, for the
claims that compare the code against it. -/

/-- The money pattern exactly as the spec words it: a dollar sign
optionally followed by a space — and no other whitespace — then one to
three digits and dot-groups. -/
def isMoneyLitSpaceOnly (s : String) : Bool :=
  match s.data with
  | c0 :: c :: cs =>
    c0 == '$' && ((c == ' ' && digitsThenGroups cs) || digitsThenGroups (c :: cs))
  | _ => false

/-- The name fallback as the spec words it: the first
whitespace-collapsed line of the candidate's full text whose length is
at least 3 characters. -/
def specNameFallbackGe3 (c : Candidate) : Option String :=
  ((pySplitNl (joinSp c.allTexts)).filterMap clean_text).find? (fun t => decide (3 ≤ t.length))

/-- Name derivation as the amended claim words it, composed differently
from the code: the first selector text passing the length filter
(selection by filter-then-head), else the first raw line whose stripped
form passes the same filter, stripped and whitespace-collapsed. -/
def specDeriveName (c : Candidate) : Option String :=
  let primary : Option String :=
    if c.isAnchor then
      if longEnough c.anchorNormText then clean_text c.anchorNormText else none
    else ((c.selTexts.filter longEnough).head?).bind clean_text
  match primary with
  | some n => some n
  | none =>
    ((pySplitNl (joinSp c.allTexts)).find? (fun t => longEnough (pyStrip t))).bind
      (fun t => clean_text (pyStrip t))

/-! ## Concrete fixtures

Closed inputs used by the witness and counterexample theorems. -/

/-- A well-formed product candidate: a container div holding a name
heading and one price text. -/
def candidateEx : Candidate :=
  { isAnchor := false
    selfHref := none
    innerIpHref := some "/ip/galletas-123"
    anchorNormText := ""
    selTexts := ["Galletas Lider 400 g"]
    allTexts := ["Galletas Lider 400 g", "$1.990"]
    containerTexts := none
    parentTexts := []
    ancestorDivTexts := none }

/-- A candidate whose only text is a three-character line: every name
locator fails and the fallback line is exactly 3 characters long. -/
def candidateAbc : Candidate :=
  { isAnchor := false
    selfHref := none
    innerIpHref := none
    anchorNormText := ""
    selTexts := []
    allTexts := ["abc"]
    containerTexts := none
    parentTexts := []
    ancestorDivTexts := none }

/-- An enabled pagination control: visible, no disabled markers, with a
nested link carrying a plain href. -/
def enabledBtn : PagButton :=
  { disabledAttr := none
    className := some "pagination-item"
    displayed := true
    link := some { href := some "https://super.lider.cl/page/2", ariaDisabled := none, className := none }
    ariaDisabled := none
    onclick := none }

/-- A pagination control carrying a disabling class marker. -/
def disabledClassBtn : PagButton :=
  { enabledBtn with className := some "pagination-item Disabled" }

/-- A runaway fixture: every position shows an enabled next control and
every direct click succeeds and navigates. -/
def runawayFx : Fixture :=
  { pages := fun n => { url := "page" ++ toString n, items := [], button := some enabledBtn }
    goto := fun _ => 0
    faultAt := fun _ => false
    reinitOk := fun _ => true
    fetchFault := fun _ => false
    clickPlan := fun _ => ClickOutcome.direct }

/-- A two-page fixture family: page 0 yields items0 and shows an
enabled control, page 1 yields items1 and shows none; direct clicks
succeed; when faulty is true a session fault hits the window check of
the second iteration and reinitialization succeeds. -/
def mkPagesFx (items0 items1 : List String) (faulty : Bool) : Fixture :=
  { pages := fun n =>
      if n == 0 then { url := "page0", items := items0, button := some enabledBtn }
      else { url := "page1", items := items1, button := none }
    goto := fun u => if u == "page0" then 0 else 1
    faultAt := fun t => faulty && t == 1
    reinitOk := fun _ => true
    fetchFault := fun _ => false
    clickPlan := fun _ => ClickOutcome.direct }

/-- A one-page fixture whose next control carries a disabling class. -/
def disabledClassFx : Fixture :=
  { pages := fun _ => { url := "only", items := ["snack"], button := some disabledClassBtn }
    goto := fun _ => 0
    faultAt := fun _ => false
    reinitOk := fun _ => true
    fetchFault := fun _ => false
    clickPlan := fun _ => ClickOutcome.direct }

/-- Concrete DOM nodes for the candidate-selection fixtures. -/
def nodeA : DomNode := { nid := 1 }

/-- A fallback anchor with a container. -/
def anchorWithContainer : AnchorInfo :=
  { href := some "/ip/snack-1", container := some { nid := 10 }, node := { nid := 11 } }

/-- A second anchor sharing the first anchor's href. -/
def anchorDupHref : AnchorInfo :=
  { href := some "/ip/snack-1", container := none, node := { nid := 12 } }

/-- A container-less anchor with a distinct href. -/
def anchorNoContainer : AnchorInfo :=
  { href := some "/ip/snack-2", container := none, node := { nid := 13 } }

/-- Export items exercising the JSON pipeline: a kept item, a duplicate
of its url, a url-less named record, and a blocked marker item. -/
def exportItemsEx : List ExportItem :=
  [ { blocked := false, debug := false, product_url := some "https://x/ip/1", name := "first" },
    { blocked := false, debug := false, product_url := some "https://x/ip/1", name := "dup" },
    { blocked := false, debug := false, product_url := none, name := "nourl" },
    { blocked := true, debug := false, product_url := some "https://x/ip/2", name := "blocked" } ]

/-- The record the extractor produces from candidateEx. -/
def recordEx : ProductRecord :=
  { category_url := "https://cat"
    product_url := some "https://cat/ip/galletas-123"
    name := "Galletas Lider 400 g"
    raw_text := some "Galletas Lider 400 g $1.990"
    price := some "$1.990"
    discount_price := some "$1.990" }

/-! # Theorems -/

/-- C9: price and discount derivation is deterministic and effect-free.
The extractor's only side channel is the logger; with the log threaded
explicitly, the record returned does not depend on the incoming log
state, a second run on the same markup returns the same record (hence
identical price and discount_price), and both agree with the pure
extraction function. -/
theorem c9_extraction_deterministic :
    ∀ (c : Candidate) (url : String) (log1 log2 : List String),
      (extract_with_log c url log1).1 = (extract_with_log c url log2).1 ∧
      (extract_with_log c url (extract_with_log c url log1).2).1 =
        (extract_with_log c url log1).1 ∧
      (extract_with_log c url log1).1 = extract_product_data c url ∧
      ((extract_with_log c url log1).1.map (fun it => (it.price, it.discount_price))) =
        ((extract_with_log c url (extract_with_log c url log1).2).1.map
          (fun it => (it.price, it.discount_price))) := by
  intro c url log1 log2
  unfold extract_with_log extract_product_data
  cases extractCore c url <;> simp

/-- C1: every record surfaced by an extractor carries a non-empty name
(and not the placeholder): a candidate whose derived name is absent or
empty is turned into None, never yielded.  For the lider spider's
extractor the property holds because that function returns None on
every input: its first statement stores the undeclared field index,
which raises KeyError into the outer handler. -/
theorem c1_surfaced_records_have_names :
    (∀ (c : Candidate) (url : String) (it : ProductRecord),
       extract_product_data c url = some it →
       ¬(it.name = "") ∧ ¬(it.name = "Sin nombre")) ∧
    (∀ (e : LiderElem) (i : Nat), lider_extract_product_data e i = none) := by
  constructor
  · intro c url it h
    unfold extract_product_data extractCore at h
    cases hrt : rawTextOf c with
    | none => rw [hrt] at h; simp at h
    | some rt =>
      rw [hrt] at h
      dsimp only [] at h
      cases hb : ((deriveName c).getD "Sin nombre" == ""
          || ((deriveName c).getD "Sin nombre" == "Sin nombre")) with
      | true => rw [hb] at h; simp at h
      | false =>
        rw [hb] at h
        have hb1 : ¬((deriveName c).getD "Sin nombre" = "") := by
          intro hEq; rw [hEq] at hb; simp at hb
        have hb2 : ¬((deriveName c).getD "Sin nombre" = "Sin nombre") := by
          intro hEq; rw [hEq] at hb; simp at hb
        obtain ⟨cu, pu, nm, rtf, pr, dp⟩ := it
        simp at h
        obtain ⟨-, -, hnm, -⟩ := h
        simpa [← hnm] using And.intro hb1 hb2
  · intro e i
    have hidx : ∀ v, itemSet [] "index" v = none := by
      intro v
      unfold itemSet
      have hc : productItemFields.contains "index" = false := by decide
      rw [hc]
      simp
    unfold lider_extract_product_data
    rw [hidx]
    rfl

/-- C2 (the failing behaviour): with a runaway next control whose
direct clicks always succeed, the loop never terminates — page_number
is never incremented on that path (the increment at line 478 is dead
code after the raise at line 466), so the guard never fires; and,
separately, whenever page_number does exceed the ceiling the while
guard stops the loop at once. -/
theorem c2_runaway_loop_never_terminates :
    (∀ (fuel t : Nat) (s : LoopState), s.pageNumber = 1 →
       (runLoop runawayFx fuel t s).2.2 = true) ∧
    (∀ (fx : Fixture) (fuel t : Nat) (s : LoopState), max_pages < s.pageNumber →
       runLoop fx (fuel + 1) t s = ([], s, false)) := by
  constructor
  · intro fuel
    induction fuel with
    | zero => intro t s h; rfl
    | succ n ih =>
      intro t s h
      have hguard : ¬ (max_pages < s.pageNumber) := by rw [h]; decide
      have hstep : loopStep runawayFx t s =
          StepOut.next
            { s with lastUrl := some ("page" ++ toString s.pos),
                     fetches := s.fetches + 1, pos := s.pos + 1,
                     clicks := s.clicks + 1 } [] := rfl
      simp only [runLoop, if_neg hguard, hstep]
      exact ih (t + 1) _ h
  · intro fx fuel t s h
    simp only [runLoop, if_pos h]

/-- C2 witness: the runaway fixture is still running after 100
iterations from the initial state, and a state past the ceiling stops
immediately. -/
theorem c2_witness :
    initLoopState.pageNumber = 1 ∧
    (runLoop runawayFx 100 0 initLoopState).2.2 = true ∧
    max_pages < (51 : Nat) ∧
    runLoop runawayFx 1 7 { pageNumber := 51, pos := 3, lastUrl := none, fetches := 3, clicks := 3 } =
      ([], { pageNumber := 51, pos := 3, lastUrl := none, fetches := 3, clicks := 3 }, false) :=
  ⟨rfl, c2_runaway_loop_never_terminates.1 100 0 initLoopState rfl, by decide,
   c2_runaway_loop_never_terminates.2 runawayFx 0 7 _ (by decide)⟩

/-- C4 counterexample: on a two-page fixture, a session fault at the
window check of the second iteration (after page 0 was processed and
the click navigated) is recovered by re-navigating to the last
observed URL, page 0; the run across the fault yields page 0's record
twice, so the totals differ from the uninterrupted run. -/
theorem c4_counterexample :
    (runLoop (mkPagesFx ["r1"] ["r2"] true) 5 0 initLoopState).1 = ["r1", "r1", "r2"] ∧
    (runLoop (mkPagesFx ["r1"] ["r2"] false) 5 0 initLoopState).1 = ["r1", "r2"] ∧
    ¬(["r1", "r1", "r2"] = ["r1", "r2"]) :=
  ⟨rfl, rfl, by decide⟩

/-- C4 amended: across the fault the loop does resume at the last
successfully observed URL and keeps running to completion, but the
page at that URL is processed again: the records yielded equal the
uninterrupted run's records with the faulted page's records repeated
once — none lost, the recovered page duplicated.  The final states
show the recovery (three fetches, two clicks) against the clean run
(two fetches, one click). -/
theorem c4_amended_recovery_duplicates_page :
    ∀ (items0 items1 : List String),
      (runLoop (mkPagesFx items0 items1 true) 5 0 initLoopState).1 =
        items0 ++ items0 ++ items1 ∧
      (runLoop (mkPagesFx items0 items1 true) 5 0 initLoopState).2 =
        ({ pageNumber := 1, pos := 1, lastUrl := some "page1", fetches := 3, clicks := 2 }, false) ∧
      (runLoop (mkPagesFx items0 items1 false) 5 0 initLoopState).1 =
        items0 ++ items1 ∧
      (runLoop (mkPagesFx items0 items1 false) 5 0 initLoopState).2 =
        ({ pageNumber := 1, pos := 1, lastUrl := some "page1", fetches := 2, clicks := 1 }, false) := by
  intro items0 items1
  have hbe : is_button_enabled enabledBtn = true := by decide
  refine ⟨?_, ?_, ?_, ?_⟩ <;>
    simp [runLoop, loopStep, mkPagesFx, initLoopState, max_pages, hbe]

/-- C5: in any iteration free of session faults and within the ceiling,
an absent next control, or a present control classified disabled (for
example by a disabling class marker), terminates the loop right after
the current page: exactly this page's items are yielded, exactly one
more page fetch happens, and no click interaction is issued (the click
counter, position and page number are unchanged). -/
theorem c5_absent_or_disabled_terminates :
    ∀ (fx : Fixture) (t : Nat) (s : LoopState) (fuel : Nat),
      fx.faultAt t = false → fx.fetchFault t = false →
      s.pageNumber ≤ max_pages →
      ((fx.pages s.pos).button = none ∨
        ∃ b, (fx.pages s.pos).button = some b ∧ is_button_enabled b = false) →
      runLoop fx (fuel + 1) t s =
        ((fx.pages s.pos).items,
         { s with lastUrl := some (fx.pages s.pos).url, fetches := s.fetches + 1 },
         false) := by
  intro fx t s fuel hfault hfetch hpg hbtn
  have hguard : ¬ (max_pages < s.pageNumber) := not_lt.mpr hpg
  have hstep : loopStep fx t s =
      StepOut.halt
        { s with lastUrl := some (fx.pages s.pos).url, fetches := s.fetches + 1 }
        (fx.pages s.pos).items := by
    unfold loopStep
    rw [hfault, hfetch]
    rcases hbtn with hb | ⟨b, hb, hdis⟩
    · simp [hb]
    · simp [hb, hdis]
  simp only [runLoop, if_neg hguard, hstep]

/-- The pipeline deduplication returns a sublist of its input, so the
exported items appear in first-seen order. -/
theorem dedupByUrl_sublist :
    ∀ (l : List ExportItem) (seen : List String), List.Sublist (dedupByUrl seen l) l := by
  intro l
  induction l with
  | nil => intro seen; exact List.Sublist.refl []
  | cons a rest ih =>
    intro seen
    unfold dedupByUrl
    cases hu : a.product_url with
    | none => exact List.Sublist.cons a (ih seen)
    | some u =>
      dsimp only []
      by_cases hc : (!(u == "") && !(seen.contains u)) = true
      · rw [if_pos hc]; exact List.Sublist.cons₂ a (ih (u :: seen))
      · rw [if_neg hc]; exact List.Sublist.cons a (ih seen)

/-- Every item surviving the pipeline deduplication carries a truthy
product url. -/
theorem mem_dedupByUrl :
    ∀ (l : List ExportItem) (seen : List String) (it : ExportItem),
      it ∈ dedupByUrl seen l → ∃ u, it.product_url = some u ∧ ¬(u = "") := by
  intro l
  induction l with
  | nil => intro seen it h; simp [dedupByUrl] at h
  | cons a rest ih =>
    intro seen it h
    unfold dedupByUrl at h
    cases hu : a.product_url with
    | none => rw [hu] at h; exact ih seen it h
    | some u =>
      rw [hu] at h
      dsimp only [] at h
      by_cases hc : (!(u == "") && !(seen.contains u)) = true
      · rw [if_pos hc] at h
        rcases List.mem_cons.mp h with h | h
        · subst h
          refine ⟨u, hu, ?_⟩
          intro he
          subst he
          simp at hc
        · exact ih (u :: seen) it h
      · rw [if_neg hc] at h
        exact ih seen it h

/-- Per url, the pipeline deduplication keeps exactly the first item of
the input bearing that url — nothing when the url was already seen, the
first matching item otherwise. -/
theorem dedupByUrl_filter_firstSeen :
    ∀ (l : List ExportItem) (seen : List String) (u : String), ¬(u = "") →
      ((u ∈ seen →
         (dedupByUrl seen l).filter (fun it => it.product_url == some u) = []) ∧
       (¬(u ∈ seen) →
         (dedupByUrl seen l).filter (fun it => it.product_url == some u) =
           (l.filter (fun it => it.product_url == some u)).take 1)) := by
  intro l
  induction l with
  | nil => intro seen u hu; constructor <;> intro h <;> simp [dedupByUrl]
  | cons a rest ih =>
    intro seen u hu
    constructor
    · intro hseen
      unfold dedupByUrl
      cases hua : a.product_url with
      | none => exact (ih seen u hu).1 hseen
      | some w =>
        dsimp only []
        by_cases hc : (!(w == "") && !(seen.contains w)) = true
        · rw [if_pos hc]
          have hw : ¬(w = u) := by
            intro he
            subst he
            simp [List.elem_eq_mem, hseen] at hc
          rw [List.filter_cons]
          have hpa : (a.product_url == some u) = false := by
            rw [hua]
            simpa using hw
          rw [hpa]
          simp only [Bool.false_eq_true, if_false]
          exact (ih (w :: seen) u hu).1 (List.mem_cons_of_mem w hseen)
        · rw [if_neg hc]
          exact (ih seen u hu).1 hseen
    · intro hseen
      unfold dedupByUrl
      cases hua : a.product_url with
      | none =>
        have hpa : (a.product_url == some u) = false := by rw [hua]; rfl
        rw [List.filter_cons, hpa]
        simp only [Bool.false_eq_true, if_false]
        exact (ih seen u hu).2 hseen
      | some w =>
        dsimp only []
        by_cases hwu : w = u
        · subst hwu
          have hc : (!(w == "") && !(seen.contains w)) = true := by
            simp [List.elem_eq_mem, hseen, hu]
          rw [if_pos hc]
          have hpa : (a.product_url == some w) = true := by rw [hua]; simp
          rw [List.filter_cons, hpa, List.filter_cons, hpa]
          simp only [if_true]
          rw [(ih (w :: seen) w hu).1 (List.mem_cons_self w seen)]
          rfl
        · have hpa : (a.product_url == some u) = false := by
            rw [hua]; simpa using hwu
          by_cases hc : (!(w == "") && !(seen.contains w)) = true
          · rw [if_pos hc]
            rw [List.filter_cons, hpa]
            simp only [Bool.false_eq_true, if_false]
            rw [List.filter_cons, hpa]
            simp only [Bool.false_eq_true, if_false]
            refine (ih (w :: seen) u hu).2 ?_
            intro hm
            rcases List.mem_cons.mp hm with h | h
            · exact hwu h.symm
            · exact hseen h
          · rw [if_neg hc]
            rw [List.filter_cons, hpa]
            simp only [Bool.false_eq_true, if_false]
            exact (ih seen u hu).2 hseen

/-- C10: the JSON export at spider close is exactly, per distinct
product_url among the processed non-blocked, non-debug items, the
first-seen item, kept in first-seen order; and every item whose
product_url is absent is omitted entirely, named record or not. -/
theorem c10_json_export_firstSeen_by_url :
    ∀ (l : List ExportItem),
      List.Sublist (close_spider_items l) (validItems l) ∧
      (∀ it, it ∈ close_spider_items l →
         it.blocked = false ∧ it.debug = false ∧
         ∃ u, it.product_url = some u ∧ ¬(u = "")) ∧
      (∀ it, it ∈ l → it.product_url = none → ¬(it ∈ close_spider_items l)) ∧
      (∀ u, ¬(u = "") →
        (close_spider_items l).filter (fun it => it.product_url == some u) =
          ((validItems l).filter (fun it => it.product_url == some u)).take 1) := by
  intro l
  refine ⟨dedupByUrl_sublist (validItems l) [], ?_, ?_, ?_⟩
  · intro it hmem
    have hv : it ∈ validItems l :=
      (dedupByUrl_sublist (validItems l) []).mem hmem
    have hfl := List.mem_filter.mp hv
    have hurl := mem_dedupByUrl (validItems l) [] it hmem
    refine ⟨?_, ?_, hurl⟩
    · rcases Bool.and_eq_true_iff.mp hfl.2 with ⟨h1, -⟩
      simpa using h1
    · rcases Bool.and_eq_true_iff.mp hfl.2 with ⟨-, h2⟩
      simpa using h2
  · intro it _ hnone hmem
    rcases mem_dedupByUrl (validItems l) [] it hmem with ⟨u, hu, -⟩
    rw [hnone] at hu
    exact Option.noConfusion hu
  · intro u hu
    exact (dedupByUrl_filter_firstSeen (validItems l) [] u hu).2 (by simp)

/-- C10 witness: on the concrete item list, the export keeps only the
first item for the duplicated url, in order, and the url-less named
record and the blocked item are gone. -/
theorem c10_witness :
    ¬(("https://x/ip/1" : String) = "") ∧
    (close_spider_items exportItemsEx).filter
        (fun it => it.product_url == some "https://x/ip/1") =
      ((validItems exportItemsEx).filter
        (fun it => it.product_url == some "https://x/ip/1")).take 1 :=
  ⟨by decide,
   (c10_json_export_firstSeen_by_url exportItemsEx).2.2.2 "https://x/ip/1" (by decide)⟩

/-- When every strategy yields nothing, the strategy loop yields
nothing. -/
theorem firstNonempty_all_nil :
    ∀ (strats : List (List DomNode)), (∀ x ∈ strats, x = []) → firstNonempty strats = [] := by
  intro strats
  induction strats with
  | nil => intro _; rfl
  | cons s rest ih =>
    intro h
    have hs : s = [] := h s (List.mem_cons_self s rest)
    subst hs
    show firstNonempty ([] :: rest) = []
    simp only [firstNonempty, List.isEmpty_nil, if_true]
    exact ih (fun x hx => h x (List.mem_cons_of_mem [] hx))

/-- The strategy loop returns the first strategy result that is
non-empty. -/
theorem firstNonempty_first :
    ∀ (pre : List (List DomNode)) (s : List DomNode) (post : List (List DomNode)),
      (∀ x ∈ pre, x = []) → ¬(s = []) →
      firstNonempty (pre ++ s :: post) = s := by
  intro pre
  induction pre with
  | nil =>
    intro s post _ hs
    have hE : s.isEmpty = false := by
      cases s with
      | nil => exact absurd rfl hs
      | cons a t => rfl
    simp only [List.nil_append, firstNonempty, hE, Bool.false_eq_true, if_false]
  | cons q pre ih =>
    intro s post hpre hs
    have hq : q = [] := hpre q (List.mem_cons_self q pre)
    subst hq
    show firstNonempty ([] :: (pre ++ s :: post)) = s
    simp only [firstNonempty, List.isEmpty_nil, if_true]
    exact ih s post (fun x hx => hpre x (List.mem_cons_of_mem [] hx)) hs

/-- Fuel irrelevance for the spec-side anchor deduplication. -/
theorem dedupAnchorsAux_fuel :
    ∀ (f g : Nat) (l : List AnchorInfo), l.length ≤ f → f ≤ g →
      dedupAnchorsAux f l = dedupAnchorsAux g l := by
  intro f
  induction f with
  | zero =>
    intro g l hl _
    have he : l = [] := List.length_eq_zero.mp (Nat.le_zero.mp hl)
    subst he
    cases g <;> rfl
  | succ n ih =>
    intro g l hl hg
    cases l with
    | nil => cases g <;> rfl
    | cons a rest =>
      cases g with
      | zero => omega
      | succ m =>
        show a :: dedupAnchorsAux n (rest.filter (fun b => !(b.href == a.href))) =
          a :: dedupAnchorsAux m (rest.filter (fun b => !(b.href == a.href)))
        congr 1
        refine ih m _ ?_ ?_
        · exact Nat.le_trans (List.length_filter_le _ _)
            (Nat.succ_le_succ_iff.mp hl)
        · exact Nat.succ_le_succ_iff.mp hg

/-- The link fallback loop of parse_products equals, for any seen set,
the spec-side composition: deduplicate the still-unseen truthy-href
anchors, then map each to its container-or-self. -/
theorem fallback_eq_specAux :
    ∀ (f : Nat) (l : List AnchorInfo) (seen : List String), l.length ≤ f →
      fallbackCandidates seen l =
        (dedupAnchorsAux f (l.filter (fun a =>
           match a.href with
           | some h => !(h == "") && !(seen.contains h)
           | none => false))).map (fun a => a.container.getD a.node) := by
  intro f
  induction f with
  | zero =>
    intro l seen hl
    have he : l = [] := List.length_eq_zero.mp (Nat.le_zero.mp hl)
    subst he
    rfl
  | succ n ih =>
    intro l seen hl
    cases l with
    | nil => rfl
    | cons a rest =>
      have hrest : rest.length ≤ n := Nat.succ_le_succ_iff.mp hl
      unfold fallbackCandidates
      cases ha : a.href with
      | none =>
        dsimp only []
        rw [List.filter_cons]
        have hpa : (match a.href with
            | some h => !(h == "") && !(seen.contains h)
            | none => false) = false := by rw [ha]
        rw [hpa]
        simp only [Bool.false_eq_true, if_false]
        rw [ih rest seen hrest]
        congr 1
        exact dedupAnchorsAux_fuel n (n + 1) _
          (Nat.le_trans (List.length_filter_le _ _) hrest) (Nat.le_succ n)
      | some h =>
        dsimp only []
        rw [List.filter_cons]
        have hpa : (match a.href with
            | some g => !(g == "") && !(seen.contains g)
            | none => false) = (!(h == "") && !(seen.contains h)) := by rw [ha]
        rw [hpa]
        by_cases hc : (!(h == "") && !(seen.contains h)) = true
        · rw [if_pos hc, hc]
          simp only [if_true]
          show (match a.container with
              | some ct => [ct]
              | none => [a.node]) ++ fallbackCandidates (h :: seen) rest =
            (a.container.getD a.node) ::
              (dedupAnchorsAux n ((rest.filter _).filter (fun b => !(b.href == a.href)))).map
                (fun b => b.container.getD b.node)
          have hhead : (match a.container with
              | some ct => [ct]
              | none => [a.node]) = [a.container.getD a.node] := by
            cases a.container <;> rfl
          rw [hhead]
          have hfuse : (rest.filter (fun b =>
              match b.href with
              | some g => !(g == "") && !(seen.contains g)
              | none => false)).filter (fun b => !(b.href == a.href)) =
            rest.filter (fun b =>
              match b.href with
              | some g => !(g == "") && !((h :: seen).contains g)
              | none => false) := by
            rw [List.filter_filter]
            refine List.filter_congr ?_
            intro b _
            cases hb : b.href with
            | none => rw [ha]; simp
            | some g =>
              rw [ha]
              dsimp only []
              have hgg : ((some g : Option String) == some h) = (g == h) := rfl
              rw [hgg, List.contains_cons]
              cases g == "" <;> cases g == h <;> cases seen.contains g <;> rfl
          rw [hfuse]
          rw [ih rest (h :: seen) hrest]
          rfl
        · rw [if_neg hc]
          have hcf : (!(h == "") && !(seen.contains h)) = false :=
            Bool.not_eq_true _ ▸ (by simpa using hc)
          rw [hcf]
          simp only [Bool.false_eq_true, if_false]
          rw [ih rest seen hrest]
          congr 1
          exact dedupAnchorsAux_fuel n (n + 1) _
            (Nat.le_trans (List.length_filter_le _ _) hrest) (Nat.le_succ n)

/-- C6: the candidate node set is the result of the first locator
strategy yielding at least one node — first-match-wins, never a union;
and when every strategy yields nothing, it is exactly the product-url
anchors deduplicated by href target, each paired with its nearest
ancestor container or, without one, the anchor itself. -/
theorem c6_first_match_and_link_fallback :
    (∀ (strats : List (List DomNode)) (anchors : List AnchorInfo)
       (pre : List (List DomNode)) (s : List DomNode) (post : List (List DomNode)),
       strats = pre ++ s :: post → (∀ x ∈ pre, x = []) → ¬(s = []) →
       parse_products_candidates strats anchors = s) ∧
    (∀ (strats : List (List DomNode)) (anchors : List AnchorInfo),
       (∀ x ∈ strats, x = []) →
       (∀ a ∈ anchors, ∃ h, a.href = some h ∧ ¬(h = "")) →
       parse_products_candidates strats anchors = specFallback anchors) := by
  constructor
  · intro strats anchors pre s post hsplit hpre hs
    subst hsplit
    unfold parse_products_candidates
    rw [firstNonempty_first pre s post hpre hs]
    dsimp only []
    have hE : s.isEmpty = false := by
      cases s with
      | nil => exact absurd rfl hs
      | cons a t => rfl
    rw [hE]
    rfl
  · intro strats anchors hall hhref
    unfold parse_products_candidates
    rw [firstNonempty_all_nil strats hall]
    dsimp only []
    simp only [List.isEmpty_nil, if_true]
    rw [fallback_eq_specAux anchors.length anchors [] (Nat.le_refl _)]
    have hfil : anchors.filter (fun a =>
        match a.href with
        | some h => !(h == "") && !(([] : List String).contains h)
        | none => false) = anchors := by
      refine List.filter_eq_self.mpr ?_
      intro a ha
      rcases hhref a ha with ⟨h, hah, hne⟩
      rw [hah]
      show (!(h == "") && !(([] : List String).contains h)) = true
      have : (h == "") = false := beq_eq_false_iff_ne.mpr hne
      rw [this]
      rfl
    rw [hfil]
    rfl

/-- C6 witness: with every strategy empty, three anchors where two
share an href produce the container of the first and the bare node of
the third; with a non-empty second strategy, its nodes win. -/
theorem c6_witness :
    (∀ x ∈ ([[], []] : List (List DomNode)), x = []) ∧
    (∀ a ∈ [anchorWithContainer, anchorDupHref, anchorNoContainer],
       ∃ h, a.href = some h ∧ ¬(h = "")) ∧
    parse_products_candidates [[], []]
        [anchorWithContainer, anchorDupHref, anchorNoContainer] =
      specFallback [anchorWithContainer, anchorDupHref, anchorNoContainer] ∧
    ¬(([nodeA] : List DomNode) = []) ∧
    parse_products_candidates [[], [nodeA], [nodeA, nodeA]] [] = [nodeA] :=
  ⟨by decide, by decide,
   c6_first_match_and_link_fallback.2 [[], []]
     [anchorWithContainer, anchorDupHref, anchorNoContainer] (by decide) (by decide),
   by decide,
   c6_first_match_and_link_fallback.1 [[], [nodeA], [nodeA, nodeA]] [] [[]] [nodeA]
     [[nodeA, nodeA]] rfl (by decide) (by decide)⟩

/-- A Python whitespace character is not a digit. -/
theorem pySpace_not_digit : ∀ c : Char, isPySpace c = true → c.isDigit = false := by
  intro c h
  unfold isPySpace at h
  simp only [Bool.or_eq_true, beq_iff_eq] at h
  rcases h with ((((h | h) | h) | h) | h) | h <;> subst h <;> decide

/-- A digit is not a Python whitespace character. -/
theorem digit_not_pySpace : ∀ c : Char, c.isDigit = true → isPySpace c = false := by
  intro c h
  cases hs : isPySpace c
  · rfl
  · rw [pySpace_not_digit c hs] at h
    exact absurd h (by simp)

/-- A digit is none of the stripped characters of the price pipeline. -/
theorem digit_not_special : ∀ c : Char, c.isDigit = true →
    (c == '$') = false ∧ (c == '.') = false ∧ (c == ' ') = false := by
  intro c h
  refine ⟨?_, ?_, ?_⟩
  · by_cases hc : c = '$'
    · subst hc; exact absurd h (by decide)
    · exact beq_eq_false_iff_ne.mpr hc
  · by_cases hc : c = '.'
    · subst hc; exact absurd h (by decide)
    · exact beq_eq_false_iff_ne.mpr hc
  · by_cases hc : c = ' '
    · subst hc; exact absurd h (by decide)
    · exact beq_eq_false_iff_ne.mpr hc

/-- The digit prefix is no longer than the list. -/
theorem digitsPrefixLen_le_length : ∀ l : List Char, digitsPrefixLen l ≤ l.length := by
  intro l
  induction l with
  | nil => exact Nat.le_refl 0
  | cons c cs ih =>
    show (if c.isDigit then digitsPrefixLen cs + 1 else 0) ≤ cs.length + 1
    cases c.isDigit
    · exact Nat.zero_le _
    · exact Nat.succ_le_succ ih

/-- Every character inside the digit prefix is a digit. -/
theorem take_digitsPrefix_all : ∀ (l : List Char) (d : Nat), d ≤ digitsPrefixLen l →
    ∀ x ∈ l.take d, x.isDigit = true := by
  intro l
  induction l with
  | nil => intro d hd x hx; simp at hx
  | cons c cs ih =>
    intro d hd x hx
    cases d with
    | zero => simp at hx
    | succ e =>
      have hc : c.isDigit = true := by
        cases hcc : c.isDigit
        · rw [show digitsPrefixLen (c :: cs) = 0 from by
            show (if c.isDigit then digitsPrefixLen cs + 1 else 0) = 0
            rw [hcc]; rfl] at hd
          omega
        · rfl
      have hdp : digitsPrefixLen (c :: cs) = digitsPrefixLen cs + 1 := by
        show (if c.isDigit then digitsPrefixLen cs + 1 else 0) = digitsPrefixLen cs + 1
        rw [hc]; rfl
      rw [hdp] at hd
      rw [List.take_succ_cons] at hx
      rcases List.mem_cons.mp hx with h | h
      · subst h; exact hc
      · exact ih e (Nat.succ_le_succ_iff.mp hd) x h

/-- Digit-prefix length across an all-digit left part. -/
theorem digitsPrefixLen_append : ∀ (A B : List Char), (∀ x ∈ A, x.isDigit = true) →
    digitsPrefixLen (A ++ B) = A.length + digitsPrefixLen B := by
  intro A
  induction A with
  | nil => intro B _; simp
  | cons c cs ih =>
    intro B hA
    have hc : c.isDigit = true := hA c (List.mem_cons_self c cs)
    show (if c.isDigit then digitsPrefixLen (cs ++ B) + 1 else 0) =
      cs.length + 1 + digitsPrefixLen B
    rw [hc, ih B (fun x hx => hA x (List.mem_cons_of_mem c hx))]
    simp only [if_true]
    omega

/-- A positive digit prefix exposes a digit head. -/
theorem digitsPrefixLen_pos : ∀ l : List Char, 0 < digitsPrefixLen l →
    ∃ c cs, l = c :: cs ∧ c.isDigit = true := by
  intro l h
  cases l with
  | nil => exact absurd h (by decide)
  | cons c cs =>
    refine ⟨c, cs, rfl, ?_⟩
    cases hc : c.isDigit
    · rw [show digitsPrefixLen (c :: cs) = 0 from by
        show (if c.isDigit then digitsPrefixLen cs + 1 else 0) = 0
        rw [hc]; rfl] at h
      omega
    · rfl

/-- The greedy dot-group length is zero or the list opens with a full
dot-group and the length recurses past it. -/
theorem groupsLen_zero_or : ∀ m : List Char, groupsLen m = 0 ∨
    ∃ a b c rest, m = '.' :: a :: b :: c :: rest ∧ a.isDigit = true ∧
      b.isDigit = true ∧ c.isDigit = true ∧ groupsLen m = 4 + groupsLen rest := by
  intro m
  rcases m with _ | ⟨c0, _ | ⟨a, _ | ⟨b, _ | ⟨c, rest⟩⟩⟩⟩
  · exact Or.inl rfl
  · exact Or.inl rfl
  · exact Or.inl rfl
  · exact Or.inl rfl
  · by_cases h : (c0 == '.' && a.isDigit && b.isDigit && c.isDigit) = true
    · right
      have hparts := h
      simp only [Bool.and_eq_true, beq_iff_eq] at hparts
      obtain ⟨⟨⟨h0, h1⟩, h2⟩, h3⟩ := hparts
      subst h0
      refine ⟨a, b, c, rest, rfl, h1, h2, h3, ?_⟩
      show (if ('.' == '.' && a.isDigit && b.isDigit && c.isDigit) = true
        then 4 + groupsLen rest else 0) = 4 + groupsLen rest
      rw [if_pos h]
    · left
      show (if (c0 == '.' && a.isDigit && b.isDigit && c.isDigit) = true
        then 4 + groupsLen rest else 0) = 0
      rw [if_neg h]

/-- Taking exactly the greedy dot-group span of a list yields a string
of full dot-groups. -/
theorem litGroups_take_groupsLen : ∀ (k : Nat) (m : List Char), m.length ≤ k →
    litGroups (m.take (groupsLen m)) = true := by
  intro k
  induction k with
  | zero =>
    intro m hm
    have he : m = [] := List.length_eq_zero.mp (Nat.le_zero.mp hm)
    subst he; rfl
  | succ j ih =>
    intro m hm
    rcases groupsLen_zero_or m with h | ⟨a, b, c, rest, hshape, ha, hb, hcd, hlen⟩
    · rw [h]; rfl
    · subst hshape
      rw [hlen, Nat.add_comm 4 (groupsLen rest)]
      show litGroups ('.' :: a :: b :: c :: rest.take (groupsLen rest)) = true
      show (('.' : Char) == '.' && a.isDigit && b.isDigit && c.isDigit &&
        litGroups (rest.take (groupsLen rest))) = true
      have hr : rest.length ≤ j := by
        have := hm
        simp only [List.length_cons] at this
        omega
      rw [ha, hb, hcd, ih rest hr]
      rfl

/-- Taking the greedy digit prefix (capped at three) and the greedy
dot-group span after it yields a valid pattern body. -/
theorem digitsThenGroups_take : ∀ cs : List Char, 0 < digitsPrefixLen cs →
    digitsThenGroups (cs.take (min (digitsPrefixLen cs) 3 +
      groupsLen (cs.drop (min (digitsPrefixLen cs) 3)))) = true := by
  intro cs hpos
  have hd1 : 1 ≤ min (digitsPrefixLen cs) 3 := by omega
  have hd3 : min (digitsPrefixLen cs) 3 ≤ 3 := Nat.min_le_right _ _
  have hddpl : min (digitsPrefixLen cs) 3 ≤ digitsPrefixLen cs := Nat.min_le_left _ _
  set d := min (digitsPrefixLen cs) 3 with hdDef
  set g := groupsLen (cs.drop d) with hgDef
  have hsplit : cs.take (d + g) = cs.take d ++ (cs.drop d).take g := List.take_add ..
  have hAdig : ∀ x ∈ cs.take d, x.isDigit = true := take_digitsPrefix_all cs d hddpl
  have hAlen : (cs.take d).length = d := by
    rw [List.length_take]
    exact Nat.min_eq_left (Nat.le_trans hddpl (digitsPrefixLen_le_length cs))
  have hB0 : digitsPrefixLen ((cs.drop d).take g) = 0 := by
    rcases groupsLen_zero_or (cs.drop d) with h0 | ⟨a, b, c, rest, hsh, -, -, -, hlen⟩
    · rw [hgDef, h0]; rfl
    · rw [hgDef, hlen, hsh, Nat.add_comm 4 (groupsLen rest)]
      rfl
  have hk : digitsPrefixLen (cs.take (d + g)) = d := by
    rw [hsplit, digitsPrefixLen_append _ _ hAdig, hAlen, hB0]
    omega
  have hdrop : (cs.take (d + g)).drop (digitsPrefixLen (cs.take (d + g))) =
      (cs.drop d).take g := by
    rw [hk, hsplit]
    exact List.drop_left' hAlen
  unfold digitsThenGroups
  dsimp only []
  rw [hdrop, hk]
  have hlit : litGroups ((cs.drop d).take g) = true := by
    rw [hgDef]
    exact litGroups_take_groupsLen (cs.drop d).length (cs.drop d) (Nat.le_refl _)
  rw [hlit]
  simp [hd1, hd3]

/-- A dollar sign in front of a valid body — with or without one
whitespace character between — is a money literal. -/
theorem isMoneyLit_dollar_body : ∀ body : List Char, digitsThenGroups body = true →
    (isMoneyLit (String.mk ('$' :: body)) = true ∧
     ∀ w : Char, isPySpace w = true → isMoneyLit (String.mk ('$' :: w :: body)) = true) := by
  intro body hb
  have hpos : 0 < digitsPrefixLen body := by
    unfold digitsThenGroups at hb
    dsimp only [] at hb
    simp only [Bool.and_eq_true, decide_eq_true_eq] at hb
    omega
  obtain ⟨b0, bs, hbody, hb0⟩ := digitsPrefixLen_pos body hpos
  subst hbody
  constructor
  · show (('$' : Char) == '$' &&
      ((isPySpace b0 && digitsThenGroups bs) || digitsThenGroups (b0 :: bs))) = true
    rw [hb]
    simp
  · intro w hw
    show (('$' : Char) == '$' &&
      ((isPySpace w && digitsThenGroups (b0 :: bs)) || digitsThenGroups (w :: b0 :: bs))) = true
    rw [hw, hb]
    simp

/-- Soundness of the position matcher: a match is at least two
characters long and the matched slice is a money literal. -/
theorem moneyMatchLen_some : ∀ (l : List Char) (n : Nat), moneyMatchLen l = some n →
    2 ≤ n ∧ isMoneyLit (String.mk (l.take n)) = true := by
  intro l n h
  cases l with
  | nil => exact absurd h (by simp [moneyMatchLen])
  | cons c0 rest =>
    unfold moneyMatchLen at h
    dsimp only [] at h
    by_cases h0 : (c0 == '$') = true
    · rw [if_pos h0] at h
      cases rest with
      | nil => simp [digitsPrefixLen] at h
      | cons c cs =>
        simp only [moneySpan] at h
        by_cases hws : (isPySpace c && decide (0 < digitsPrefixLen cs)) = true
        · rw [if_pos hws] at h
          dsimp only [] at h
          by_cases hz : (min (digitsPrefixLen cs) 3 == 0) = true
          · rw [if_pos hz] at h; exact absurd h (by simp)
          · rw [if_neg hz] at h
            have hn : n = 1 + 1 + min (digitsPrefixLen cs) 3 +
                groupsLen (cs.drop (min (digitsPrefixLen cs) 3)) := (Option.some.inj h).symm
            obtain ⟨hws1, hws2⟩ := Bool.and_eq_true_iff.mp hws
            have hpos : 0 < digitsPrefixLen cs := by simpa using hws2
            constructor
            · omega
            · have hc0 : c0 = '$' := beq_iff_eq.mp h0
              subst hc0
              have hn2 : n = (min (digitsPrefixLen cs) 3 +
                  groupsLen (cs.drop (min (digitsPrefixLen cs) 3))) + 2 := by omega
              rw [hn2]
              exact (isMoneyLit_dollar_body _ (digitsThenGroups_take cs hpos)).2 c hws1
        · rw [if_neg hws] at h
          dsimp only [] at h
          by_cases hz : (min (digitsPrefixLen (c :: cs)) 3 == 0) = true
          · rw [if_pos hz] at h; exact absurd h (by simp)
          · rw [if_neg hz] at h
            have hn : n = 1 + 0 + min (digitsPrefixLen (c :: cs)) 3 +
                groupsLen ((c :: cs).drop (min (digitsPrefixLen (c :: cs)) 3)) :=
              (Option.some.inj h).symm
            have hne : ¬(min (digitsPrefixLen (c :: cs)) 3 = 0) := by simpa using hz
            have hpos : 0 < digitsPrefixLen (c :: cs) := by omega
            constructor
            · omega
            · have hc0 : c0 = '$' := beq_iff_eq.mp h0
              subst hc0
              have hn2 : n = (min (digitsPrefixLen (c :: cs)) 3 +
                  groupsLen ((c :: cs).drop (min (digitsPrefixLen (c :: cs)) 3))) + 1 := by
                omega
              rw [hn2]
              exact (isMoneyLit_dollar_body _ (digitsThenGroups_take (c :: cs) hpos)).1
    · rw [if_neg h0] at h
      exact absurd h (by simp)

/-- Every character of a dot-group string is a dot or a digit. -/
theorem litGroups_content : ∀ (k : Nat) (m : List Char), m.length ≤ k →
    litGroups m = true → ∀ x ∈ m, x = '.' ∨ x.isDigit = true := by
  intro k
  induction k with
  | zero =>
    intro m hm _ x hx
    have he : m = [] := List.length_eq_zero.mp (Nat.le_zero.mp hm)
    subst he
    simp at hx
  | succ j ih =>
    intro m hm hg x hx
    rcases m with _ | ⟨c0, _ | ⟨a, _ | ⟨b, _ | ⟨c, rest⟩⟩⟩⟩
    · simp at hx
    · exact absurd hg (by simp [litGroups])
    · exact absurd hg (by simp [litGroups])
    · exact absurd hg (by simp [litGroups])
    · have hparts : (c0 == '.' && a.isDigit && b.isDigit && c.isDigit &&
          litGroups rest) = true := hg
      simp only [Bool.and_eq_true, beq_iff_eq] at hparts
      obtain ⟨⟨⟨⟨h0, h1⟩, h2⟩, h3⟩, h4⟩ := hparts
      have hr : rest.length ≤ j := by
        simp only [List.length_cons] at hm
        omega
      rcases List.mem_cons.mp hx with hh | hx
      · subst hh; exact Or.inl h0
      rcases List.mem_cons.mp hx with hh | hx
      · subst hh; exact Or.inr h1
      rcases List.mem_cons.mp hx with hh | hx
      · subst hh; exact Or.inr h2
      rcases List.mem_cons.mp hx with hh | hx
      · subst hh; exact Or.inr h3
      exact ih rest hr h4 x hx

/-- Every character of a valid pattern body is a dot or a digit. -/
theorem digitsThenGroups_content : ∀ m : List Char, digitsThenGroups m = true →
    ∀ x ∈ m, x = '.' ∨ x.isDigit = true := by
  intro m hm x hx
  unfold digitsThenGroups at hm
  dsimp only [] at hm
  simp only [Bool.and_eq_true, decide_eq_true_eq] at hm
  obtain ⟨⟨-, -⟩, hlit⟩ := hm
  rw [← List.take_append_drop (digitsPrefixLen m) m] at hx
  rcases List.mem_append.mp hx with h | h
  · exact Or.inr (take_digitsPrefix_all m (digitsPrefixLen m) (Nat.le_refl _) x h)
  · exact litGroups_content (m.drop (digitsPrefixLen m)).length _ (Nat.le_refl _) hlit x h

/-- A valid pattern body starts with a digit. -/
theorem digitsThenGroups_head : ∀ m : List Char, digitsThenGroups m = true →
    ∃ b0 bs, m = b0 :: bs ∧ b0.isDigit = true := by
  intro m hm
  refine digitsPrefixLen_pos m ?_
  unfold digitsThenGroups at hm
  dsimp only [] at hm
  simp only [Bool.and_eq_true, decide_eq_true_eq] at hm
  omega

/-- A Python whitespace character is neither a dollar nor a dot. -/
theorem pySpace_not_special : ∀ c : Char, isPySpace c = true →
    (c == '$') = false ∧ (c == '.') = false := by
  intro c h
  unfold isPySpace at h
  simp only [Bool.or_eq_true, beq_iff_eq] at h
  rcases h with ((((h | h) | h) | h) | h) | h <;> subst h <;> exact ⟨rfl, rfl⟩

/-- Trimming leading whitespace is the identity on whitespace-free
lists. -/
theorem trimLeadWs_no_ws : ∀ l : List Char, (∀ x ∈ l, isPySpace x = false) →
    trimLeadWs l = l := by
  intro l h
  cases l with
  | nil => rfl
  | cons c cs =>
    show (if isPySpace c then trimLeadWs cs else c :: cs) = c :: cs
    rw [h c (List.mem_cons_self c cs)]
    rfl

/-- Stripping is the identity on whitespace-free lists. -/
theorem pyStripL_no_ws : ∀ l : List Char, (∀ x ∈ l, isPySpace x = false) →
    pyStripL l = l := by
  intro l h
  unfold pyStripL
  rw [trimLeadWs_no_ws l h,
      trimLeadWs_no_ws l.reverse (fun x hx => h x (List.mem_reverse.mp hx)),
      List.reverse_reverse]

/-- Stripping removes a single leading whitespace character in front of
a whitespace-free tail. -/
theorem pyStripL_ws_head : ∀ (w : Char) (l : List Char), isPySpace w = true →
    (∀ x ∈ l, isPySpace x = false) → pyStripL (w :: l) = l := by
  intro w l hw hl
  unfold pyStripL
  rw [show trimLeadWs (w :: l) = trimLeadWs l from by
      show (if isPySpace w then trimLeadWs l else w :: l) = trimLeadWs l
      rw [hw]; rfl,
    trimLeadWs_no_ws l hl,
    trimLeadWs_no_ws l.reverse (fun x hx => hl x (List.mem_reverse.mp hx)),
    List.reverse_reverse]

/-- Python int() succeeds on a non-empty digit list. -/
theorem pyInt?_digits : ∀ y : List Char, ¬(y = []) → (∀ x ∈ y, x.isDigit = true) →
    pyInt? (String.mk y) = some (digitsVal y) := by
  intro y hne hdig
  unfold pyInt?
  dsimp only []
  rw [show pyStripL (String.mk y).data = y from
    pyStripL_no_ws y (fun x hx => digit_not_pySpace x (hdig x hx))]
  have hE : y.isEmpty = false := by
    cases y with
    | nil => exact absurd rfl hne
    | cons a t => rfl
  rw [hE, List.all_eq_true.mpr hdig]
  rfl

/-- On dot-digit content, the pipeline's space, dollar and dot filters
keep exactly the digits. -/
theorem filter_money_content : ∀ m : List Char, (∀ x ∈ m, x = '.' ∨ x.isDigit = true) →
    m.filter (fun a => (!(a == '$') && !(a == '.')) && !(a == ' ')) =
      m.filter (fun a => a.isDigit) := by
  intro m h
  refine List.filter_congr ?_
  intro x hx
  rcases h x hx with h1 | h1
  · subst h1; rfl
  · obtain ⟨hd1, hd2, hd3⟩ := digit_not_special x h1
    rw [hd1, hd2, hd3, h1]
    rfl

/-- Python int() also succeeds with one leading whitespace character in
front of the digits: int() strips it. -/
theorem pyInt?_ws_digits : ∀ (w : Char) (y : List Char), isPySpace w = true →
    ¬(y = []) → (∀ x ∈ y, x.isDigit = true) →
    pyInt? (String.mk (w :: y)) = some (digitsVal y) := by
  intro w y hw hne hdig
  unfold pyInt?
  dsimp only []
  rw [show pyStripL (String.mk (w :: y)).data = y from
    pyStripL_ws_head w y hw (fun x hx => digit_not_pySpace x (hdig x hx))]
  have hE : y.isEmpty = false := by
    cases y with
    | nil => exact absurd rfl hne
    | cons a t => rfl
  rw [hE, List.all_eq_true.mpr hdig]
  rfl

/-- Every money literal, after space removal, parses to an integer once
dollars and dots are dropped: the try-int of lines 748-752 never drops
a scanner literal. -/
theorem isMoneyLit_parses : ∀ p : String, isMoneyLit p = true →
    ∃ v, moneyVal? (removeSpaces p) = some v := by
  intro p hp
  unfold isMoneyLit at hp
  rcases hdata : p.data with _ | ⟨c0, _ | ⟨c, cs⟩⟩
  · rw [hdata] at hp; exact absurd hp (by simp)
  · rw [hdata] at hp; exact absurd hp (by simp)
  · rw [hdata] at hp
    dsimp only [] at hp
    simp only [Bool.and_eq_true, Bool.or_eq_true, beq_iff_eq] at hp
    obtain ⟨hc0, hOr⟩ := hp
    subst hc0
    have key : moneyVal? (removeSpaces p) =
        pyInt? (String.mk (('$' :: c :: cs).filter
          (fun a => (!(a == '$') && !(a == '.')) && !(a == ' ')))) := by
      show pyInt? (String.mk ((p.data.filter (fun a => !(a == ' '))).filter
        (fun a => !(a == '$') && !(a == '.')))) = _
      rw [hdata, List.filter_filter]
    rw [key]
    have hstep : ('$' :: c :: cs).filter
        (fun a => (!(a == '$') && !(a == '.')) && !(a == ' ')) =
        (c :: cs).filter (fun a => (!(a == '$') && !(a == '.')) && !(a == ' ')) := rfl
    rw [hstep]
    rcases hOr with ⟨hwsc, hdtg⟩ | hdtg
    · -- whitespace after the dollar; the body is cs
      have hcont := digitsThenGroups_content cs hdtg
      obtain ⟨b0, bs, hcs, hb0⟩ := digitsThenGroups_head cs hdtg
      obtain ⟨hns1, hns2⟩ := pySpace_not_special c hwsc
      have htail : cs.filter (fun a => (!(a == '$') && !(a == '.')) && !(a == ' ')) =
          cs.filter (fun a => a.isDigit) := filter_money_content cs hcont
      have hyne : ¬(cs.filter (fun a => a.isDigit) = []) := by
        intro hnil
        have hbmem : b0 ∈ cs.filter (fun a => a.isDigit) := by
          rw [hcs]
          exact List.mem_filter.mpr ⟨List.mem_cons_self b0 bs, hb0⟩
        rw [hnil] at hbmem
        simp at hbmem
      have hydig : ∀ x ∈ cs.filter (fun a => a.isDigit), x.isDigit = true :=
        fun x hx => (List.mem_filter.mp hx).2
      by_cases hsp : (c == ' ') = true
      · have hFc : ((!(c == '$') && !(c == '.')) && !(c == ' ')) = false := by
          rw [hns1, hns2, hsp]
          rfl
        rw [List.filter_cons, hFc]
        simp only [Bool.false_eq_true, if_false]
        rw [htail]
        exact ⟨_, pyInt?_digits _ hyne hydig⟩
      · have hFc : ((!(c == '$') && !(c == '.')) && !(c == ' ')) = true := by
          rw [hns1, hns2]
          cases hcc : (c == ' ')
          · rfl
          · exact absurd hcc hsp
        rw [List.filter_cons, hFc]
        simp only [if_true]
        rw [htail]
        exact ⟨_, pyInt?_ws_digits c _ hwsc hyne hydig⟩
    · -- no whitespace; the body is c followed by cs
      have hcont := digitsThenGroups_content (c :: cs) hdtg
      obtain ⟨b0, bs, hbs, hb0⟩ := digitsThenGroups_head (c :: cs) hdtg
      have hc : c.isDigit = true := by
        have := List.cons.inj hbs
        rw [this.1]
        exact hb0
      have hall : (c :: cs).filter
          (fun a => (!(a == '$') && !(a == '.')) && !(a == ' ')) =
          (c :: cs).filter (fun a => a.isDigit) :=
        filter_money_content (c :: cs) hcont
      rw [hall, List.filter_cons, hc]
      simp only [if_true]
      refine ⟨_, pyInt?_digits _ (by simp) ?_⟩
      intro x hx
      rcases List.mem_cons.mp hx with hh | hh
      · subst hh; exact hc
      · exact (List.mem_filter.mp hh).2

/-- A take is a Boolean prefix of its list. -/
theorem isPrefixCh_take : ∀ (n : Nat) (l : List Char), isPrefixCh (l.take n) l = true := by
  intro n
  induction n with
  | zero => intro l; cases l <;> rfl
  | succ m ih =>
    intro l
    cases l with
    | nil => rfl
    | cons c cs =>
      show (c == c && isPrefixCh (cs.take m) cs) = true
      rw [ih cs]
      simp

/-- Substring occurrence is preserved by extending the haystack on the
left. -/
theorem containsSubL_cons_of : ∀ (nd : List Char) (c : Char) (cs : List Char),
    containsSubL nd cs = true → containsSubL nd (c :: cs) = true := by
  intro nd c cs h
  show (isPrefixCh nd (c :: cs) || containsSubL nd cs) = true
  rw [h]
  simp

/-- Substring occurrence in a suffix is occurrence in the whole. -/
theorem containsSubL_drop : ∀ (n : Nat) (nd l : List Char),
    containsSubL nd (l.drop n) = true → containsSubL nd l = true := by
  intro n
  induction n with
  | zero => intro nd l h; simpa using h
  | succ m ih =>
    intro nd l h
    cases l with
    | nil => simpa using h
    | cons c cs => exact containsSubL_cons_of nd c cs (ih nd cs h)

/-- Every literal the scanner emits is a money literal and occurs in
the scanned text. -/
theorem findAllAux_sound : ∀ (fuel : Nat) (l : List Char) (p : String),
    p ∈ findAllAux fuel l → isMoneyLit p = true ∧ containsSubL p.data l = true := by
  intro fuel
  induction fuel with
  | zero => intro l p h; simp [findAllAux] at h
  | succ f ih =>
    intro l p h
    cases l with
    | nil => simp [findAllAux] at h
    | cons c cs =>
      unfold findAllAux at h
      cases hm : moneyMatchLen (c :: cs) with
      | some n =>
        rw [hm] at h
        dsimp only [] at h
        rcases List.mem_cons.mp h with hh | hh
        · subst hh
          obtain ⟨-, hlit⟩ := moneyMatchLen_some (c :: cs) n hm
          refine ⟨hlit, ?_⟩
          show (isPrefixCh ((c :: cs).take n) (c :: cs) ||
            containsSubL ((c :: cs).take n) cs) = true
          rw [isPrefixCh_take]
          rfl
        · obtain ⟨hl, hcont⟩ := ih ((c :: cs).drop n) p hh
          exact ⟨hl, containsSubL_drop n _ _ hcont⟩
      | none =>
        rw [hm] at h
        dsimp only [] at h
        obtain ⟨hl, hcont⟩ := ih cs p h
        exact ⟨hl, containsSubL_cons_of _ _ _ hcont⟩

/-- Inversion of the Boolean prefix test. -/
theorem isPrefixCh_cons_inv : ∀ (a : Char) (as l : List Char),
    isPrefixCh (a :: as) l = true → ∃ bs, l = a :: bs ∧ isPrefixCh as bs = true := by
  intro a as l h
  cases l with
  | nil => exact absurd h (by simp [isPrefixCh])
  | cons b bs =>
    have hab : (a == b && isPrefixCh as bs) = true := h
    simp only [Bool.and_eq_true, beq_iff_eq] at hab
    exact ⟨bs, by rw [hab.1], hab.2⟩

/-- A digit head gives a positive digit prefix. -/
theorem digitsPrefixLen_cons_digit : ∀ (d : Char) (t : List Char), d.isDigit = true →
    digitsPrefixLen (d :: t) = digitsPrefixLen t + 1 := by
  intro d t hd
  show (if d.isDigit then digitsPrefixLen t + 1 else 0) = digitsPrefixLen t + 1
  rw [hd]
  rfl

/-- The position matcher fires on a dollar head followed by either a
whitespace-then-digits rest or a digits-first rest. -/
theorem moneyMatchLen_fires : ∀ rest : List Char,
    ((∃ c cs, rest = c :: cs ∧ isPySpace c = true ∧ 0 < digitsPrefixLen cs) ∨
      0 < digitsPrefixLen rest) →
    ∃ n, moneyMatchLen ('$' :: rest) = some n := by
  intro rest hcase
  unfold moneyMatchLen
  dsimp only []
  have h0 : (('$' : Char) == '$') = true := rfl
  rw [if_pos h0]
  rcases hcase with ⟨c, cs, hrest, hws, hpos⟩ | hpos
  · subst hrest
    simp only [moneySpan]
    rw [if_pos (show (isPySpace c && decide (0 < digitsPrefixLen cs)) = true from by
      rw [hws]; simpa using hpos)]
    dsimp only []
    rw [show (min (digitsPrefixLen cs) 3 == 0) = false from
      beq_eq_false_iff_ne.mpr (by omega)]
    simp only [Bool.false_eq_true, if_false]
    exact ⟨_, rfl⟩
  · cases rest with
    | nil => simp [digitsPrefixLen] at hpos
    | cons c cs =>
      obtain ⟨c', cs', hinj, hdig⟩ := digitsPrefixLen_pos (c :: cs) hpos
      have hc : c.isDigit = true := by
        have := List.cons.inj hinj
        rw [this.1]
        exact hdig
      simp only [moneySpan]
      rw [if_neg (show ¬((isPySpace c && decide (0 < digitsPrefixLen cs)) = true) from by
        rw [digit_not_pySpace c hc]; simp)]
      dsimp only []
      rw [show (min (digitsPrefixLen (c :: cs)) 3 == 0) = false from
        beq_eq_false_iff_ne.mpr (by omega)]
      simp only [Bool.false_eq_true, if_false]
      exact ⟨_, rfl⟩

/-- A money literal sitting at the head of the text makes the matcher
fire there. -/
theorem isMoneyLit_prefix_match : ∀ (m : String) (l : List Char),
    isMoneyLit m = true → isPrefixCh m.data l = true →
    ∃ n, moneyMatchLen l = some n := by
  intro m l hm hpre
  unfold isMoneyLit at hm
  rcases hdata : m.data with _ | ⟨c0, _ | ⟨c, cs⟩⟩
  · rw [hdata] at hm; exact absurd hm (by simp)
  · rw [hdata] at hm; exact absurd hm (by simp)
  · rw [hdata] at hm
    dsimp only [] at hm
    simp only [Bool.and_eq_true, Bool.or_eq_true, beq_iff_eq] at hm
    obtain ⟨hc0, hOr⟩ := hm
    subst hc0
    rw [hdata] at hpre
    obtain ⟨bs, hl, hpre1⟩ := isPrefixCh_cons_inv '$' (c :: cs) l hpre
    subst hl
    obtain ⟨bs2, hbs, hpre2⟩ := isPrefixCh_cons_inv c cs bs hpre1
    subst hbs
    rcases hOr with ⟨hws, hdtg⟩ | hdtg
    · obtain ⟨d0, cs', hcs, hd0⟩ := digitsThenGroups_head cs hdtg
      subst hcs
      obtain ⟨bs3, hbs2, -⟩ := isPrefixCh_cons_inv d0 cs' bs2 hpre2
      subst hbs2
      refine moneyMatchLen_fires _ (Or.inl ⟨c, d0 :: bs3, rfl, hws, ?_⟩)
      rw [digitsPrefixLen_cons_digit d0 bs3 hd0]
      omega
    · obtain ⟨d0, cs', hcs, hd0⟩ := digitsThenGroups_head (c :: cs) hdtg
      have hc : c.isDigit = true := by
        have := List.cons.inj hcs
        rw [this.1]
        exact hd0
      refine moneyMatchLen_fires _ (Or.inr ?_)
      rw [digitsPrefixLen_cons_digit c bs2 hc]
      omega

/-- No money literal occurs inside the empty text. -/
theorem no_lit_in_nil : ∀ m : String, containsSubL m.data [] = true →
    isMoneyLit m = false := by
  intro m hcont
  cases hdata : m.data with
  | nil => unfold isMoneyLit; rw [hdata]
  | cons c cs =>
    rw [hdata] at hcont
    exact absurd hcont (by simp [containsSubL, isPrefixCh])

/-- When the scanner finds nothing, no substring of the text is a
money literal. -/
theorem findAllAux_nil_no_lit : ∀ (fuel : Nat) (l : List Char), l.length ≤ fuel →
    findAllAux fuel l = [] →
    ∀ m : String, containsSubL m.data l = true → isMoneyLit m = false := by
  intro fuel
  induction fuel with
  | zero =>
    intro l hl _ m hcont
    have he : l = [] := List.length_eq_zero.mp (Nat.le_zero.mp hl)
    subst he
    exact no_lit_in_nil m hcont
  | succ f ih =>
    intro l hl hnil m hcont
    cases l with
    | nil => exact no_lit_in_nil m hcont
    | cons c cs =>
      unfold findAllAux at hnil
      cases hm : moneyMatchLen (c :: cs) with
      | some n => rw [hm] at hnil; exact absurd hnil (by simp)
      | none =>
        rw [hm] at hnil
        dsimp only [] at hnil
        have hsplit : (isPrefixCh m.data (c :: cs) || containsSubL m.data cs) = true := hcont
        rcases Bool.or_eq_true_iff.mp hsplit with hpre | hrest
        · cases hlit : isMoneyLit m
          · rfl
          · obtain ⟨n, hn⟩ := isMoneyLit_prefix_match m (c :: cs) hlit hpre
            rw [hm] at hn
            exact absurd hn (by simp)
        · exact ih cs (Nat.le_of_succ_le_succ hl) hnil m hrest

/-- Scanner soundness on strings. -/
theorem findall_money_sound : ∀ (t p : String), p ∈ findall_money t →
    isMoneyLit p = true ∧ containsSubL p.data t.data = true :=
  fun t p h => findAllAux_sound t.data.length t.data p h

/-- The scanner finds nothing exactly when no substring of the text is
a money literal. -/
theorem findall_money_empty_iff : ∀ t : String,
    (findall_money t = []) ↔
      (∀ m : String, containsSubL m.data t.data = true → isMoneyLit m = false) := by
  intro t
  constructor
  · exact findAllAux_nil_no_lit t.data.length t.data (Nat.le_refl _)
  · intro h
    cases hf : findall_money t with
    | nil => rfl
    | cons p rest =>
      obtain ⟨hlit, hcont⟩ := findall_money_sound t p (by
        rw [hf]; exact List.mem_cons_self p rest)
      rw [h p hcont] at hlit
      exact absurd hlit (by simp)

/-- Deduplication only keeps members of its input. -/
theorem mem_dedupFirstSeen : ∀ (l seen : List String) (x : String),
    x ∈ dedupFirstSeen seen l → x ∈ l := by
  intro l
  induction l with
  | nil => intro seen x h; simp [dedupFirstSeen] at h
  | cons p rest ih =>
    intro seen x h
    unfold dedupFirstSeen at h
    by_cases hc : (seen.contains p) = true
    · rw [if_pos hc] at h
      exact List.mem_cons_of_mem p (ih seen x h)
    · rw [if_neg hc] at h
      rcases List.mem_cons.mp h with hh | hh
      · subst hh; exact List.mem_cons_self x rest
      · exact List.mem_cons_of_mem p (ih (p :: seen) x hh)

/-- Every space-stripped literal of the pipeline parses. -/
theorem literalList_parses : ∀ (t x : String), x ∈ literalList t →
    ∃ v, moneyVal? x = some v := by
  intro t x hx
  unfold literalList at hx
  rcases List.mem_map.mp hx with ⟨p, hpmem, hpx⟩
  have hpf : p ∈ findall_money t := (List.mem_filter.mp hpmem).1
  obtain ⟨hlit, -⟩ := findall_money_sound t p hpf
  obtain ⟨v, hv⟩ := isMoneyLit_parses p hlit
  exact ⟨v, by rw [← hpx]; exact hv⟩

/-- Every deduplicated literal of unique_prices parses. -/
theorem unique_prices_parses : ∀ (t x : String), x ∈ unique_prices t →
    ∃ v, moneyVal? x = some v :=
  fun t x hx => literalList_parses t x (mem_dedupFirstSeen _ [] x hx)

/-- Membership through the stable insertion step. -/
theorem mem_insertKeyed : ∀ (p : Nat × String) (l : List (Nat × String)) (a : Nat × String),
    a ∈ insertKeyed p l ↔ a = p ∨ a ∈ l := by
  intro p l
  induction l with
  | nil => intro a; simp [insertKeyed]
  | cons q qs ih =>
    intro a
    unfold insertKeyed
    by_cases hlt : p.1 < q.1
    · rw [if_pos hlt]
      simp [List.mem_cons]
    · rw [if_neg hlt]
      simp [List.mem_cons, ih]
      tauto

/-- The stable insertion step preserves key-sortedness. -/
theorem pairwise_insertKeyed : ∀ (p : Nat × String) (l : List (Nat × String)),
    l.Pairwise (fun a b => a.1 ≤ b.1) →
    (insertKeyed p l).Pairwise (fun a b => a.1 ≤ b.1) := by
  intro p l
  induction l with
  | nil => intro _; simp [insertKeyed]
  | cons q qs ih =>
    intro hp
    rw [List.pairwise_cons] at hp
    obtain ⟨hq, hqs⟩ := hp
    unfold insertKeyed
    by_cases hlt : p.1 < q.1
    · rw [if_pos hlt, List.pairwise_cons]
      constructor
      · intro b hb
        rcases List.mem_cons.mp hb with hh | hh
        · subst hh; exact Nat.le_of_lt hlt
        · exact Nat.le_trans (Nat.le_of_lt hlt) (hq b hh)
      · exact List.pairwise_cons.mpr ⟨hq, hqs⟩
    · rw [if_neg hlt, List.pairwise_cons]
      constructor
      · intro b hb
        rcases (mem_insertKeyed p qs b).mp hb with hh | hh
        · subst hh; omega
        · exact hq b hh
      · exact ih hqs

/-- Membership through the sorting fold. -/
theorem mem_sortByVal_aux : ∀ (l acc : List (Nat × String)) (a : Nat × String),
    a ∈ l.foldl (fun acc p => insertKeyed p acc) acc ↔ a ∈ acc ∨ a ∈ l := by
  intro l
  induction l with
  | nil => intro acc a; simp
  | cons p ps ih =>
    intro acc a
    show a ∈ ps.foldl (fun acc p => insertKeyed p acc) (insertKeyed p acc) ↔ _
    rw [ih (insertKeyed p acc) a, mem_insertKeyed]
    simp [List.mem_cons]
    tauto

/-- The sorting fold sorts. -/
theorem pairwise_sortByVal_aux : ∀ (l acc : List (Nat × String)),
    acc.Pairwise (fun a b => a.1 ≤ b.1) →
    (l.foldl (fun acc p => insertKeyed p acc) acc).Pairwise (fun a b => a.1 ≤ b.1) := by
  intro l
  induction l with
  | nil => intro acc h; exact h
  | cons p ps ih => intro acc h; exact ih _ (pairwise_insertKeyed p acc h)

/-- Membership in the sorted price pairs. -/
theorem mem_sortByVal : ∀ (l : List (Nat × String)) (a : Nat × String),
    a ∈ sortByVal l ↔ a ∈ l := by
  intro l a
  unfold sortByVal
  rw [mem_sortByVal_aux]
  simp

/-- The sorted price pairs are sorted by key. -/
theorem pairwise_sortByVal : ∀ l : List (Nat × String),
    (sortByVal l).Pairwise (fun a b => a.1 ≤ b.1) :=
  fun l => pairwise_sortByVal_aux l [] (by simp)

/-- Insertion grows the length by one. -/
theorem length_insertKeyed : ∀ (p : Nat × String) (l : List (Nat × String)),
    (insertKeyed p l).length = l.length + 1 := by
  intro p l
  induction l with
  | nil => rfl
  | cons q qs ih =>
    unfold insertKeyed
    by_cases hlt : p.1 < q.1
    · rw [if_pos hlt]; rfl
    · rw [if_neg hlt]
      simp only [List.length_cons, ih]

/-- The sorting fold preserves total length. -/
theorem length_sortByVal_aux : ∀ (l acc : List (Nat × String)),
    (l.foldl (fun acc p => insertKeyed p acc) acc).length = acc.length + l.length := by
  intro l
  induction l with
  | nil => intro acc; rfl
  | cons p ps ih =>
    intro acc
    show (ps.foldl (fun acc p => insertKeyed p acc) (insertKeyed p acc)).length = _
    rw [ih (insertKeyed p acc), length_insertKeyed]
    simp only [List.length_cons]
    omega

/-- Sorting preserves length. -/
theorem length_sortByVal : ∀ l : List (Nat × String), (sortByVal l).length = l.length := by
  intro l
  unfold sortByVal
  rw [length_sortByVal_aux]
  simp

/-- The head of a key-sorted list has the minimal key. -/
theorem pairwise_head_le : ∀ (x : Nat × String) (tl : List (Nat × String)),
    (x :: tl).Pairwise (fun a b => a.1 ≤ b.1) → ∀ a ∈ x :: tl, x.1 ≤ a.1 := by
  intro x tl hp a ha
  rw [List.pairwise_cons] at hp
  rcases List.mem_cons.mp ha with hh | hh
  · subst hh; exact Nat.le_refl _
  · exact hp.1 a hh

/-- The defaulted last element of a non-empty list is a member. -/
theorem getLastD_mem : ∀ (tl : List (Nat × String)) (x d : Nat × String),
    (x :: tl).getLastD d ∈ x :: tl := by
  intro tl
  induction tl with
  | nil => intro x d; simp [List.getLastD]
  | cons y ys ih =>
    intro x d
    show (y :: ys).getLastD x ∈ x :: y :: ys
    exact List.mem_cons_of_mem x (ih y x)

/-- Every member of a key-sorted non-empty list has key at most the
last element's key. -/
theorem pairwise_le_getLastD : ∀ (tl : List (Nat × String)) (x d : Nat × String),
    (x :: tl).Pairwise (fun a b => a.1 ≤ b.1) →
    ∀ a ∈ x :: tl, a.1 ≤ ((x :: tl).getLastD d).1 := by
  intro tl
  induction tl with
  | nil =>
    intro x d _ a ha
    rcases List.mem_cons.mp ha with hh | hh
    · subst hh; exact Nat.le_refl _
    · simp at hh
  | cons y ys ih =>
    intro x d hp a ha
    have hstep : (x :: y :: ys).getLastD d = (y :: ys).getLastD x := rfl
    rw [hstep]
    rw [List.pairwise_cons] at hp
    rcases List.mem_cons.mp ha with hh | hh
    · subst hh
      exact hp.1 _ (getLastD_mem ys y a)
    · exact ih y x hp.2 a hh

/-- Membership characterisation of the value-literal pairs built at
lines 745-752. -/
theorem mem_pricePairs : ∀ (ups : List String) (a : Nat × String),
    a ∈ ups.filterMap (fun s => (moneyVal? s).map (fun v => (v, s))) ↔
      a.2 ∈ ups ∧ moneyVal? a.2 = some a.1 := by
  intro ups a
  rw [List.mem_filterMap]
  constructor
  · rintro ⟨x, hx, hfx⟩
    rcases Option.map_eq_some'.mp hfx with ⟨v, hv, hva⟩
    subst hva
    exact ⟨hx, hv⟩
  · rintro ⟨hmem, hval⟩
    refine ⟨a.2, hmem, ?_⟩
    rw [hval]
    rfl

/-- When every literal parses, the pair list keeps the full length. -/
theorem length_pricePairs : ∀ ups : List String,
    (∀ x ∈ ups, ∃ v, moneyVal? x = some v) →
    (ups.filterMap (fun s => (moneyVal? s).map (fun v => (v, s)))).length = ups.length := by
  intro ups
  induction ups with
  | nil => intro _; rfl
  | cons x xs ih =>
    intro h
    obtain ⟨v, hv⟩ := h x (List.mem_cons_self x xs)
    rw [List.filterMap_cons]
    rw [show ((moneyVal? x).map (fun v => (v, x))) = some (v, x) from by rw [hv]; rfl]
    simp only [List.length_cons]
    rw [ih (fun y hy => h y (List.mem_cons_of_mem x hy))]

/-- C3: the price heuristic's case split on the deduplicated literal
list: no literal gives absent price and discount; one literal fills
both with it; two or more make discount_price a literal of minimal
parsed value and price a literal of maximal parsed value, both taken
from the list. -/
theorem c3_price_case_split :
    ∀ t : String,
      (unique_prices t = [] →
        priceFrom (unique_prices t) = (none, none)) ∧
      (∀ x, unique_prices t = [x] →
        priceFrom (unique_prices t) = (some x, some x)) ∧
      (2 ≤ (unique_prices t).length →
        ∃ pmax pmin vmax vmin,
          priceFrom (unique_prices t) = (some pmax, some pmin) ∧
          pmax ∈ unique_prices t ∧ pmin ∈ unique_prices t ∧
          moneyVal? pmax = some vmax ∧ moneyVal? pmin = some vmin ∧
          (∀ x ∈ unique_prices t, ∀ v, moneyVal? x = some v →
            vmin ≤ v ∧ v ≤ vmax)) := by
  intro t
  refine ⟨?_, ?_, ?_⟩
  · intro h; rw [h]; rfl
  · intro x h; rw [h]; rfl
  · intro hlen
    have hparse : ∀ x ∈ unique_prices t, ∃ v, moneyVal? x = some v :=
      fun x hx => unique_prices_parses t x hx
    have hpvlen : (((unique_prices t).filterMap
        (fun s => (moneyVal? s).map (fun v => (v, s))))).length =
        (unique_prices t).length := length_pricePairs _ hparse
    have hslen : (sortByVal ((unique_prices t).filterMap
        (fun s => (moneyVal? s).map (fun v => (v, s))))).length =
        (unique_prices t).length := by
      rw [length_sortByVal, hpvlen]
    rcases hs : sortByVal ((unique_prices t).filterMap
        (fun s => (moneyVal? s).map (fun v => (v, s)))) with _ | ⟨x, _ | ⟨y, rest⟩⟩
    · rw [hs] at hslen; simp at hslen; omega
    · rw [hs] at hslen; simp at hslen; omega
    · have hsorted : (x :: y :: rest).Pairwise (fun a b => a.1 ≤ b.1) := by
        rw [← hs]; exact pairwise_sortByVal _
      have hmemS : ∀ a : Nat × String, a ∈ x :: y :: rest ↔
          a.2 ∈ unique_prices t ∧ moneyVal? a.2 = some a.1 := by
        intro a
        rw [← hs, mem_sortByVal, mem_pricePairs]
      have hlast : (y :: rest).getLastD y ∈ x :: y :: rest := by
        have h1 : (x :: y :: rest).getLastD y = (y :: rest).getLastD x := rfl
        have h2 : (y :: rest).getLastD x = (y :: rest).getLastD y := rfl
        rw [← h2, ← h1]
        exact getLastD_mem (y :: rest) x y
      have hfirst : x ∈ x :: y :: rest := List.mem_cons_self x (y :: rest)
      obtain ⟨hmaxU, hmaxV⟩ := (hmemS _).mp hlast
      obtain ⟨hminU, hminV⟩ := (hmemS _).mp hfirst
      refine ⟨((y :: rest).getLastD y).2, x.2, ((y :: rest).getLastD y).1, x.1,
        ?_, hmaxU, hminU, hmaxV, hminV, ?_⟩
      · unfold priceFrom
        rw [if_pos hlen]
        dsimp only []
        rw [hs]
      · intro z hz v hv
        have hzp : (v, z) ∈ x :: y :: rest := (hmemS (v, z)).mpr ⟨hz, hv⟩
        constructor
        · exact pairwise_head_le x (y :: rest) hsorted (v, z) hzp
        · have hle := pairwise_le_getLastD (y :: rest) x y hsorted (v, z) hzp
          have h1 : (x :: y :: rest).getLastD y = (y :: rest).getLastD y := rfl
          rw [h1] at hle
          exact hle

/-- C1 witness: a concrete product container candidate is extracted
into a record whose name is non-empty and not the placeholder. -/
theorem c1_witness :
    ¬(recordEx.name = "") ∧ ¬(recordEx.name = "Sin nombre") :=
  c1_surfaced_records_have_names.1 candidateEx "https://cat" recordEx rfl

/-- C3 witness: a text with no literal gives absent prices, one literal
fills both fields, and the two-literal text of the spec's example
yields a minimal discount and maximal price literal. -/
theorem c3_witness :
    unique_prices "Sin precios aqui" = [] ∧
    priceFrom (unique_prices "Sin precios aqui") = (none, none) ∧
    unique_prices "Oferta $3.200" = ["$3.200"] ∧
    priceFrom (unique_prices "Oferta $3.200") = (some "$3.200", some "$3.200") ∧
    2 ≤ (unique_prices "Antes $7.990 ahora $5.490").length ∧
    (∃ pmax pmin vmax vmin,
      priceFrom (unique_prices "Antes $7.990 ahora $5.490") = (some pmax, some pmin) ∧
      pmax ∈ unique_prices "Antes $7.990 ahora $5.490" ∧
      pmin ∈ unique_prices "Antes $7.990 ahora $5.490" ∧
      moneyVal? pmax = some vmax ∧ moneyVal? pmin = some vmin ∧
      (∀ x ∈ unique_prices "Antes $7.990 ahora $5.490", ∀ v, moneyVal? x = some v →
        vmin ≤ v ∧ v ≤ vmax)) :=
  ⟨rfl, (c3_price_case_split "Sin precios aqui").1 rfl,
   rfl, (c3_price_case_split "Oferta $3.200").2.1 "$3.200" rfl,
   by decide, (c3_price_case_split "Antes $7.990 ahora $5.490").2.2 (by decide)⟩

/-- Fuel irrelevance for the spec-side string deduplication. -/
theorem specNubAux_fuel : ∀ (f g : Nat) (l : List String), l.length ≤ f → f ≤ g →
    specNubAux f l = specNubAux g l := by
  intro f
  induction f with
  | zero =>
    intro g l hl _
    have he : l = [] := List.length_eq_zero.mp (Nat.le_zero.mp hl)
    subst he
    cases g <;> rfl
  | succ n ih =>
    intro g l hl hg
    cases l with
    | nil => cases g <;> rfl
    | cons x xs =>
      cases g with
      | zero => omega
      | succ m =>
        show x :: specNubAux n (xs.filter (fun y => !(y == x))) =
          x :: specNubAux m (xs.filter (fun y => !(y == x)))
        congr 1
        refine ih m _ ?_ ?_
        · exact Nat.le_trans (List.length_filter_le _ _) (Nat.succ_le_succ_iff.mp hl)
        · exact Nat.succ_le_succ_iff.mp hg

/-- The seen-set deduplication loop equals, for any seen set, the
spec-side nub of the still-unseen entries. -/
theorem dedupFirstSeen_eq_specNubAux : ∀ (f : Nat) (l seen : List String),
    l.length ≤ f →
    dedupFirstSeen seen l = specNubAux f (l.filter (fun y => !(seen.contains y))) := by
  intro f
  induction f with
  | zero =>
    intro l seen hl
    have he : l = [] := List.length_eq_zero.mp (Nat.le_zero.mp hl)
    subst he
    rfl
  | succ n ih =>
    intro l seen hl
    cases l with
    | nil => rfl
    | cons p rest =>
      have hrest : rest.length ≤ n := Nat.succ_le_succ_iff.mp hl
      unfold dedupFirstSeen
      rw [List.filter_cons]
      by_cases hc : (seen.contains p) = true
      · rw [if_pos hc]
        rw [show (!(seen.contains p)) = false from by rw [hc]; rfl]
        simp only [Bool.false_eq_true, if_false]
        rw [ih rest seen hrest]
        exact specNubAux_fuel n (n + 1) _
          (Nat.le_trans (List.length_filter_le _ _) hrest) (Nat.le_succ n)
      · rw [if_neg hc]
        have hcf : (seen.contains p) = false := by
          cases hcc : seen.contains p
          · rfl
          · exact absurd hcc hc
        rw [show (!(seen.contains p)) = true from by rw [hcf]; rfl]
        simp only [if_true]
        show p :: dedupFirstSeen (p :: seen) rest =
          p :: specNubAux n ((rest.filter (fun y => !(seen.contains y))).filter
            (fun y => !(y == p)))
        congr 1
        rw [List.filter_filter]
        rw [ih rest (p :: seen) hrest]
        congr 1
        refine List.filter_congr ?_
        intro y _
        rw [List.contains_cons]
        cases y == p <;> cases seen.contains y <;> rfl

/-- The pipeline dedup is the spec-side first-seen nub. -/
theorem dedupFirstSeen_eq_specNub : ∀ l : List String,
    dedupFirstSeen [] l = specNub l := by
  intro l
  unfold specNub
  rw [dedupFirstSeen_eq_specNubAux l.length l [] (Nat.le_refl _)]
  congr 1
  refine List.filter_eq_self.mpr ?_
  intro a _
  rfl

/-- C7 counterexample: on the tab input, the scanner emits a literal
with a tab after the dollar sign; the claim's pattern — a space and no
other whitespace — rejects that literal, while the code's whitespace
pattern accepts it. -/
theorem c7_counterexample :
    findall_money "$\t490" = ["$\t490"] ∧
    isMoneyLitSpaceOnly "$\t490" = false ∧
    isMoneyLit "$\t490" = true :=
  ⟨rfl, rfl, rfl⟩

/-- C7 amended: the monetary literals considered are exactly the
in-text matches of the pattern with any single whitespace character
after the dollar sign — every literal the scanner returns matches the
pattern and occurs in the text, the scanner returns nothing exactly
when no substring matches, and the resulting list is deduplicated
preserving first-seen order of the space-stripped literals. -/
theorem c7_amended_whitespace_scanner :
    (∀ (t p : String), p ∈ findall_money t →
       isMoneyLit p = true ∧ containsSubL p.data t.data = true) ∧
    (∀ t : String, (findall_money t = []) ↔
       (∀ m : String, containsSubL m.data t.data = true → isMoneyLit m = false)) ∧
    (∀ t : String, unique_prices t = specNub (literalList t)) :=
  ⟨findall_money_sound, findall_money_empty_iff,
   fun t => dedupFirstSeen_eq_specNub (literalList t)⟩

/-- C7 witness: the scanner's literal in a concrete text matches the
pattern and occurs in it; the empty-scan equivalence instantiates on a
moneyless text; and the dedup equation instantiates on a text with a
repeated literal. -/
theorem c7_witness :
    ("$1.234" ∈ findall_money "x $1.234 y $1.234") ∧
    (isMoneyLit "$1.234" = true ∧
      containsSubL "$1.234".data "x $1.234 y $1.234".data = true) ∧
    ((findall_money "sin dinero" = []) ↔
      (∀ m : String, containsSubL m.data "sin dinero".data = true →
        isMoneyLit m = false)) ∧
    unique_prices "x $1.234 y $1.234" = specNub (literalList "x $1.234 y $1.234") :=
  ⟨by decide,
   c7_amended_whitespace_scanner.1 "x $1.234 y $1.234" "$1.234" (by decide),
   c7_amended_whitespace_scanner.2.1 "sin dinero",
   c7_amended_whitespace_scanner.2.2 "x $1.234 y $1.234"⟩

/-- The first-match search equals head-of-filtered. -/
theorem find?_eq_head_filter : ∀ (p : String → Bool) (l : List String),
    l.find? p = (l.filter p).head? := by
  intro p l
  induction l with
  | nil => rfl
  | cons x xs ih =>
    cases hx : p x
    · show (match p x with
        | true => some x
        | false => xs.find? p) = ((x :: xs).filter p).head?
      rw [hx, List.filter_cons, hx]
      simp only [Bool.false_eq_true, if_false]
      exact ih
    · show (match p x with
        | true => some x
        | false => xs.find? p) = ((x :: xs).filter p).head?
      rw [hx, List.filter_cons, hx]
      rfl

/-- The code's strip-then-filter-then-head fallback equals the
spec-side search over raw lines. -/
theorem head_filter_map_strip : ∀ l : List String,
    ((((l.map pyStrip).filter longEnough).head?).bind clean_text) =
      ((l.find? (fun t => longEnough (pyStrip t))).bind
        (fun t => clean_text (pyStrip t))) := by
  intro l
  induction l with
  | nil => rfl
  | cons x xs ih =>
    cases hx : longEnough (pyStrip x)
    · show ((((pyStrip x :: xs.map pyStrip).filter longEnough).head?).bind clean_text) = _
      rw [List.filter_cons, hx]
      simp only [Bool.false_eq_true, if_false]
      rw [ih]
      show _ = (match longEnough (pyStrip x) with
        | true => some x
        | false => xs.find? (fun t => longEnough (pyStrip t))).bind
          (fun t => clean_text (pyStrip t))
      rw [hx]
    · show ((((pyStrip x :: xs.map pyStrip).filter longEnough).head?).bind clean_text) = _
      rw [List.filter_cons, hx]
      show (some (pyStrip x)).bind clean_text = _
      rw [show (x :: xs).find? (fun t => longEnough (pyStrip t)) = some x from by
        show (match longEnough (pyStrip x) with
          | true => some x
          | false => xs.find? (fun t => longEnough (pyStrip t))) = some x
        rw [hx]]
      rfl

/-- C8 counterexample: a candidate whose only text line is exactly
three characters long.  Every locator fails; the code's fallback
(strictly longer than 3) also fails, so the candidate is discarded,
while the claim's fallback (length at least 3) would name it abc. -/
theorem c8_counterexample :
    deriveName candidateAbc = none ∧
    extract_product_data candidateAbc "https://cat" = none ∧
    specNameFallbackGe3 candidateAbc = some "abc" :=
  ⟨rfl, rfl, rfl⟩

/-- C8 amended: name derivation takes the first locator text longer
than 3 characters (cleaned), and otherwise the first newline piece of
the full text whose stripped form is longer than 3 characters —
strictly longer, the same threshold as the locators — stripped and
whitespace-collapsed.  Stated as equality with the spec-side
formulation composed from search instead of filtering. -/
theorem c8_amended_name_derivation :
    ∀ c : Candidate, deriveName c = specDeriveName c := by
  intro c
  unfold deriveName specDeriveName
  dsimp only []
  by_cases ha : c.isAnchor = true
  · rw [if_pos ha, if_pos ha]
    cases hval : (if longEnough c.anchorNormText then clean_text c.anchorNormText else none) with
    | some n => rfl
    | none => exact head_filter_map_strip (pySplitNl (joinSp c.allTexts))
  · rw [if_neg ha, if_neg ha, find?_eq_head_filter]
    cases hval : ((c.selTexts.filter longEnough).head?).bind clean_text with
    | some n => rfl
    | none => exact head_filter_map_strip (pySplitNl (joinSp c.allTexts))

/-- C5 witness: a one-page fixture whose control carries a Disabled
class marker stops after yielding the page's single record, with one
fetch and zero clicks. -/
theorem c5_witness :
    (disabledClassFx.faultAt 0 = false) ∧
    (disabledClassFx.fetchFault 0 = false) ∧
    (initLoopState.pageNumber ≤ max_pages) ∧
    runLoop disabledClassFx 1 0 initLoopState =
      (["snack"],
       { initLoopState with lastUrl := some "only", fetches := initLoopState.fetches + 1 },
       false) :=
  ⟨rfl, rfl, by decide,
   c5_absent_or_disabled_terminates disabledClassFx 0 initLoopState 0 rfl rfl (by decide)
     (Or.inr ⟨disabledClassBtn, rfl, by decide⟩)⟩

end Planner
